import Mathlib

/-!
Verification development for the `erasure-sim` repository: a peer-to-peer,
erasure-coded object store.  The per-node state machine, shard sets, files
and the Create/Replicate/Request protocol are embedded from
`crates/erasure-node/src/{file.rs, node.rs, network.rs}`.  The Reed–Solomon
codec lives in the external crate `reed_solomon_erasure` (not part of this
repository's sources); it is modelled from the specification (§4.1): a
systematic Reed–Solomon(k, m) code over GF(2⁸) built from a Vandermonde
matrix, whose reconstruction succeeds from any k of the n = k + m shards.

The first sections build the GF(2⁸) field used by the codec: natural
numbers viewed as polynomials over GF(2) (xor as addition, carry-less
multiplication), reduced modulo the degree-8 polynomial 0x11D.
-/

namespace ErasureSim

/-! ### Carry-less multiplication: `Nat` as polynomials over GF(2) -/

/-- Fuel-driven worker for carry-less multiplication.  The fuel only bounds
the recursion depth; any fuel `≥ a` computes the true product. -/
def clmulAux : Nat → Nat → Nat → Nat
  | 0, _, _ => 0
  | f + 1, a, b =>
    if a = 0 then 0 else (if a % 2 = 1 then b else 0) ^^^ 2 * clmulAux f (a / 2) b

/-- Carry-less (polynomial) multiplication of naturals viewed as
polynomials over GF(2): addition is `xor`. -/
def clmul (a b : Nat) : Nat := clmulAux a a b

theorem clmulAux_zero_mid : ∀ (f b : Nat), clmulAux f 0 b = 0
  | 0, _ => rfl
  | _ + 1, _ => by rw [clmulAux]; simp

theorem clmulAux_congr : ∀ (f1 f2 a b : Nat), a ≤ f1 → a ≤ f2 →
    clmulAux f1 a b = clmulAux f2 a b := by
  intro f1
  induction f1 with
  | zero =>
    intro f2 a b h1 _
    have : a = 0 := by omega
    subst this
    rw [clmulAux_zero_mid, clmulAux_zero_mid]
  | succ f1 ih =>
    intro f2 a b h1 h2
    rcases eq_or_ne a 0 with rfl | ha
    · rw [clmulAux_zero_mid, clmulAux_zero_mid]
    · obtain ⟨f2p, rfl⟩ : ∃ f2p, f2 = f2p + 1 := ⟨f2 - 1, by omega⟩
      rw [clmulAux, clmulAux, if_neg ha, if_neg ha,
        ih f2p (a / 2) b (by omega) (by omega)]

theorem clmul_zero_left (b : Nat) : clmul 0 b = 0 := rfl

theorem clmul_of_ne {a : Nat} (h : a ≠ 0) (b : Nat) :
    clmul a b = (if a % 2 = 1 then b else 0) ^^^ 2 * clmul (a / 2) b := by
  obtain ⟨ap, rfl⟩ : ∃ ap, a = ap + 1 := ⟨a - 1, by omega⟩
  show clmulAux (ap + 1) (ap + 1) b = _
  rw [clmulAux, if_neg h]
  have : clmulAux ap ((ap + 1) / 2) b = clmul ((ap + 1) / 2) b :=
    clmulAux_congr ap ((ap + 1) / 2) ((ap + 1) / 2) b (by omega) (by omega)
  rw [this]

theorem clmul_zero_right (a : Nat) : clmul a 0 = 0 := by
  induction a using Nat.strong_induction_on with
  | _ a ih =>
    rcases eq_or_ne a 0 with rfl | h
    · exact clmul_zero_left 0
    · rw [clmul_of_ne h, ih (a / 2) (Nat.div_lt_self (Nat.pos_of_ne_zero h) (by omega))]
      simp

theorem clmul_two_mul_left (a b : Nat) : clmul (2 * a) b = 2 * clmul a b := by
  rcases eq_or_ne a 0 with rfl | h
  · simp [clmul_zero_left]
  · rw [clmul_of_ne (by omega)]
    have h1 : 2 * a % 2 = 0 := by omega
    have h2 : 2 * a / 2 = a := by omega
    simp [h1, h2]

theorem clmul_odd_left (a b : Nat) : clmul (2 * a + 1) b = b ^^^ 2 * clmul a b := by
  rw [clmul_of_ne (by omega)]
  have h1 : (2 * a + 1) % 2 = 1 := by omega
  have h2 : (2 * a + 1) / 2 = a := by omega
  simp [h1, h2]

theorem clmul_one_left (b : Nat) : clmul 1 b = b := by
  have := clmul_odd_left 0 b
  simpa [clmul_zero_left] using this

/-- Doubling distributes over xor (degree shift of polynomials). -/
theorem two_mul_xor (x y : Nat) : 2 * (x ^^^ y) = 2 * x ^^^ 2 * y := by
  apply Nat.eq_of_testBit_eq
  intro i
  cases i with
  | zero =>
    simp [Nat.testBit_zero, Nat.mul_mod_right]
  | succ i =>
    have e : ∀ z : Nat, (2 * z).testBit (i + 1) = z.testBit i := by
      intro z
      rw [Nat.testBit_succ]
      congr 1
      omega
    simp only [Nat.testBit_xor, e]

theorem xor_left_comm (a b c : Nat) : a ^^^ (b ^^^ c) = b ^^^ (a ^^^ c) := by
  rw [← Nat.xor_assoc, Nat.xor_comm a b, Nat.xor_assoc]

/-- When the low bits are disjoint, xor agrees with addition. -/
theorem xor_eq_add_of_lt (q t r : Nat) (h : r < 2 ^ t) :
    (2 ^ t * q) ^^^ r = 2 ^ t * q + r := by
  apply Nat.eq_of_testBit_eq
  intro j
  rw [Nat.testBit_xor, Nat.testBit_mul_pow_two_add _ h, Nat.testBit_mul_pow_two]
  rcases Nat.lt_or_ge j t with hj | hj
  · simp [hj, Nat.not_le_of_lt hj]
  · have hr : r.testBit j = false :=
      Nat.testBit_lt_two_pow (Nat.lt_of_lt_of_le h (Nat.pow_le_pow_right (by omega) hj))
    simp [hj, Nat.not_lt_of_le hj, hr]

theorem ge_two_pow_xor {x y n : Nat} (hx : 2 ^ n ≤ x) (hy : y < 2 ^ n) :
    2 ^ n ≤ x ^^^ y := by
  by_contra hcon
  have : x < 2 ^ n := by
    have := Nat.xor_lt_two_pow (Nat.lt_of_not_le hcon) hy
    rwa [Nat.xor_assoc, Nat.xor_self, Nat.xor_zero] at this
  omega

theorem clmul_xor_right (a b c : Nat) : clmul a (b ^^^ c) = clmul a b ^^^ clmul a c := by
  induction a using Nat.strong_induction_on with
  | _ a ih =>
    rcases eq_or_ne a 0 with rfl | h
    · simp [clmul_zero_left]
    · rw [clmul_of_ne h, clmul_of_ne h (b := b), clmul_of_ne h (b := c),
        ih (a / 2) (Nat.div_lt_self (Nat.pos_of_ne_zero h) (by omega)), two_mul_xor]
      rcases Nat.mod_two_eq_zero_or_one a with hp | hp <;>
        simp [hp, Nat.xor_assoc, xor_left_comm]

theorem clmul_xor_left (a b c : Nat) : clmul (a ^^^ b) c = clmul a c ^^^ clmul b c := by
  induction a using Nat.strong_induction_on generalizing b with
  | _ a ih =>
    rcases eq_or_ne a 0 with rfl | ha
    · simp [clmul_zero_left]
    rcases eq_or_ne b 0 with rfl | hb
    · simp [clmul_zero_left]
    rcases eq_or_ne (a ^^^ b) 0 with hab | hab
    · rw [hab, clmul_zero_left, Nat.xor_eq_zero.mp hab, Nat.xor_self]
    · rw [clmul_of_ne hab, clmul_of_ne ha, clmul_of_ne hb, Nat.xor_div_two,
        ih (a / 2) (Nat.div_lt_self (Nat.pos_of_ne_zero ha) (by omega)), two_mul_xor]
      have hm := Nat.xor_mod_two_eq (m := a) (n := b)
      rcases Nat.mod_two_eq_zero_or_one a with hpa | hpa <;>
        rcases Nat.mod_two_eq_zero_or_one b with hpb | hpb <;>
        · have : (a ^^^ b) % 2 = (a + b) % 2 := hm
          simp [hpa, hpb, Nat.add_mod, this, Nat.xor_assoc, xor_left_comm,
            Nat.xor_cancel_left]

theorem clmul_two_mul_right (a b : Nat) : clmul a (2 * b) = 2 * clmul a b := by
  induction a using Nat.strong_induction_on with
  | _ a ih =>
    rcases eq_or_ne a 0 with rfl | h
    · simp [clmul_zero_left]
    · rw [clmul_of_ne h, clmul_of_ne h (b := b),
        ih (a / 2) (Nat.div_lt_self (Nat.pos_of_ne_zero h) (by omega)), two_mul_xor]
      rcases Nat.mod_two_eq_zero_or_one a with hp | hp <;>
        simp [hp, Nat.mul_left_comm]

theorem clmul_one_right (a : Nat) : clmul a 1 = a := by
  induction a using Nat.strong_induction_on with
  | _ a ih =>
    rcases eq_or_ne a 0 with rfl | h
    · simp [clmul_zero_left]
    · rw [clmul_of_ne h, ih (a / 2) (Nat.div_lt_self (Nat.pos_of_ne_zero h) (by omega))]
      have h2 : (2 : Nat) * (a / 2) = 2 ^ 1 * (a / 2) := by norm_num
      rcases Nat.mod_two_eq_zero_or_one a with hp | hp
      · rw [if_neg (by omega), Nat.zero_xor]
        omega
      · rw [if_pos hp, Nat.xor_comm, h2, xor_eq_add_of_lt _ 1 1 (by norm_num)]
        omega

theorem clmul_comm (a b : Nat) : clmul a b = clmul b a := by
  induction a using Nat.strong_induction_on with
  | _ a ih =>
    rcases eq_or_ne a 0 with rfl | h
    · simp [clmul_zero_left, clmul_zero_right]
    · have hdiv := Nat.div_lt_self (Nat.pos_of_ne_zero h) (show 1 < 2 by omega)
      rw [clmul_of_ne h, ih (a / 2) hdiv]
      have h2 : (2 : Nat) * (a / 2) = 2 ^ 1 * (a / 2) := by norm_num
      rcases Nat.mod_two_eq_zero_or_one a with hp | hp
      · have ha : a = 2 * (a / 2) := by omega
        rw [if_neg (by omega), Nat.zero_xor, ← clmul_two_mul_right, ← ha]
      · have ha : a = 1 ^^^ 2 * (a / 2) := by
          rw [Nat.xor_comm, h2, xor_eq_add_of_lt _ 1 1 (by norm_num)]
          omega
        rw [if_pos hp]
        have hcomb : b ^^^ clmul b (2 * (a / 2)) = clmul b (1 ^^^ 2 * (a / 2)) := by
          rw [clmul_xor_right, clmul_one_right]
        rw [← clmul_two_mul_right, hcomb, ← ha]

theorem clmul_assoc (a b c : Nat) : clmul (clmul a b) c = clmul a (clmul b c) := by
  induction a using Nat.strong_induction_on with
  | _ a ih =>
    rcases eq_or_ne a 0 with rfl | h
    · simp [clmul_zero_left]
    · have hdiv := Nat.div_lt_self (Nat.pos_of_ne_zero h) (show 1 < 2 by omega)
      rw [clmul_of_ne h, clmul_xor_left, clmul_two_mul_left, ih (a / 2) hdiv,
        clmul_of_ne h (b := clmul b c)]
      rcases Nat.mod_two_eq_zero_or_one a with hp | hp <;> simp [hp, clmul_zero_left]

theorem clmul_two_pow_left (s b : Nat) : clmul (2 ^ s) b = 2 ^ s * b := by
  induction s with
  | zero => simp [clmul_one_left]
  | succ s ihs =>
    have : (2 : Nat) ^ (s + 1) = 2 * 2 ^ s := by rw [Nat.pow_succ]; omega
    rw [this, clmul_two_mul_left, ihs, Nat.mul_assoc]

theorem clmul_lt_two_pow {a b : Nat} {s t : Nat} (ha : a < 2 ^ s) (hb : b < 2 ^ t) :
    clmul a b < 2 ^ (s + t) := by
  induction a using Nat.strong_induction_on generalizing s with
  | _ a ih =>
    rcases eq_or_ne a 0 with rfl | h
    · rw [clmul_zero_left]
      exact Nat.pos_pow_of_pos _ (by omega)
    · have hs : s ≠ 0 := by
        rintro rfl
        simp at ha
        omega
      have hdiv2 : a / 2 < 2 ^ (s - 1) := by
        have : 2 ^ s = 2 * 2 ^ (s - 1) := by
          rw [← Nat.pow_succ']
          congr 1
          omega
        omega
      have ihh := ih (a / 2) (Nat.div_lt_self (Nat.pos_of_ne_zero h) (by omega)) hdiv2
      have h2 : 2 * clmul (a / 2) b < 2 ^ (s + t) := by
        have : 2 ^ (s + t) = 2 * 2 ^ (s - 1 + t) := by
          rw [← Nat.pow_succ']
          congr 1
          omega
        omega
      have hb' : b < 2 ^ (s + t) :=
        Nat.lt_of_lt_of_le hb (Nat.pow_le_pow_right (by omega) (by omega))
      rw [clmul_of_ne h]
      rcases Nat.mod_two_eq_zero_or_one a with hp | hp
      · simpa [hp] using h2
      · simp only [hp, if_pos rfl]
        exact Nat.xor_lt_two_pow hb' h2

/-- The top bit of a carry-less product: `clmul` of nonzero arguments is at
least the product of the leading powers of two. -/
theorem le_clmul {a b : Nat} (ha : a ≠ 0) (hb : b ≠ 0) :
    2 ^ (a.log2 + b.log2) ≤ clmul a b := by
  set s := a.log2 with hs
  set t := b.log2 with ht
  have has : 2 ^ s ≤ a := Nat.log2_self_le ha
  have hbt : 2 ^ t ≤ b := Nat.log2_self_le hb
  have has' : a < 2 ^ (s + 1) := Nat.lt_log2_self
  have hbt' : b < 2 ^ (t + 1) := Nat.lt_log2_self
  have hxa : 2 ^ s ^^^ (a - 2 ^ s) = a := by
    have h1 := xor_eq_add_of_lt 1 s (a - 2 ^ s) (by omega)
    rw [Nat.mul_one] at h1
    rw [h1]
    omega
  have hxb : 2 ^ t ^^^ (b - 2 ^ t) = b := by
    have h1 := xor_eq_add_of_lt 1 t (b - 2 ^ t) (by omega)
    rw [Nat.mul_one] at h1
    rw [h1]
    omega
  have hra : a - 2 ^ s < 2 ^ s := by
    have h1 : 2 ^ (s + 1) = 2 * 2 ^ s := by rw [Nat.pow_succ]; omega
    omega
  have hrb : b - 2 ^ t < 2 ^ t := by
    have h1 : 2 ^ (t + 1) = 2 * 2 ^ t := by rw [Nat.pow_succ]; omega
    omega
  have hexp : clmul a b = 2 ^ (s + t) ^^^
      (2 ^ s * (b - 2 ^ t) ^^^ ((a - 2 ^ s) * 2 ^ t ^^^
        clmul (a - 2 ^ s) (b - 2 ^ t))) := by
    conv_lhs => rw [← hxa, ← hxb]
    rw [clmul_xor_left, clmul_xor_right, clmul_xor_right, clmul_two_pow_left,
      clmul_two_pow_left, ← Nat.pow_add, Nat.xor_assoc,
      clmul_comm (a - 2 ^ s) (2 ^ t), clmul_two_pow_left, Nat.mul_comm (2 ^ t)]
  have h1 : 2 ^ s * (b - 2 ^ t) < 2 ^ (s + t) := by
    rw [Nat.pow_add]
    exact Nat.mul_lt_mul_of_le_of_lt (Nat.le_refl _) hrb (Nat.pos_pow_of_pos _ (by omega))
  have h2 : (a - 2 ^ s) * 2 ^ t < 2 ^ (s + t) := by
    rw [Nat.pow_add]
    exact Nat.mul_lt_mul_of_lt_of_le hra (Nat.le_refl _) (Nat.pos_pow_of_pos _ (by omega))
  have h3 : clmul (a - 2 ^ s) (b - 2 ^ t) < 2 ^ (s + t) :=
    clmul_lt_two_pow hra hrb
  rw [hexp]
  exact ge_two_pow_xor (Nat.le_refl _)
    (Nat.xor_lt_two_pow h1 (Nat.xor_lt_two_pow h2 h3))

/-! ### Reduction modulo the field polynomial 0x11D -/

theorem xor_lt_of_both_ge {x y t : Nat} (hx1 : 2 ^ t ≤ x) (hx2 : x < 2 ^ (t + 1))
    (hy1 : 2 ^ t ≤ y) (hy2 : y < 2 ^ (t + 1)) : x ^^^ y < 2 ^ t := by
  have hp : 2 ^ (t + 1) = 2 * 2 ^ t := by rw [Nat.pow_succ]; omega
  have hx : 2 ^ t ^^^ (x - 2 ^ t) = x := by
    have h1 := xor_eq_add_of_lt 1 t (x - 2 ^ t) (by omega)
    rw [Nat.mul_one] at h1
    rw [h1]
    omega
  have hy : 2 ^ t ^^^ (y - 2 ^ t) = y := by
    have h1 := xor_eq_add_of_lt 1 t (y - 2 ^ t) (by omega)
    rw [Nat.mul_one] at h1
    rw [h1]
    omega
  have key : ∀ A B : Nat, (2 ^ t ^^^ A) ^^^ (2 ^ t ^^^ B) = A ^^^ B := by
    intro A B
    rw [Nat.xor_comm (2 ^ t) A, Nat.xor_assoc, ← Nat.xor_assoc (2 ^ t),
      Nat.xor_self, Nat.zero_xor]
  have : x ^^^ y = (x - 2 ^ t) ^^^ (y - 2 ^ t) := by
    conv_lhs => rw [← hx, ← hy]
    exact key _ _
  rw [this]
  exact Nat.xor_lt_two_pow (by omega) (by omega)

theorem testBit_true_of_mem {x n : Nat} (h1 : 2 ^ n ≤ x) (h2 : x < 2 ^ (n + 1)) :
    x.testBit n = true := by
  rw [Nat.testBit_to_div_mod]
  have hpos : 0 < 2 ^ n := Nat.pos_pow_of_pos _ (by omega)
  have hd1 : 1 ≤ x / 2 ^ n := (Nat.le_div_iff_mul_le hpos).mpr (by omega)
  have hd2 : x / 2 ^ n < 2 := by
    apply Nat.div_lt_of_lt_mul
    rw [Nat.pow_succ] at h2
    omega
  have : x / 2 ^ n = 1 := by omega
  simp [this]

theorem ge_of_testBit_true {x n : Nat} (h : x.testBit n = true) : 2 ^ n ≤ x := by
  by_contra hcon
  rw [Nat.testBit_lt_two_pow (by omega)] at h
  exact Bool.false_ne_true h

/-- One step of polynomial reduction: clear bit `i + 8` (if set) by xoring
the field polynomial 0x11D = 285 shifted by `i`. -/
def polyModStep (a i : Nat) : Nat := if a.testBit (i + 8) then a ^^^ (285 <<< i) else a

/-- Reduction modulo the Reed–Solomon field polynomial
x⁸ + x⁴ + x³ + x² + 1 (0x11D = 285) for polynomials of degree < 16 —
sufficient for products of two field elements.  Bits 15 down to 8 are
cleared from the top. -/
def polyMod (a : Nat) : Nat :=
  polyModStep (polyModStep (polyModStep (polyModStep (polyModStep (polyModStep
    (polyModStep (polyModStep a 7) 6) 5) 4) 3) 2) 1) 0

theorem polyModStep_lt {a i : Nat} (h : a < 2 ^ (i + 9)) :
    polyModStep a i < 2 ^ (i + 8) := by
  unfold polyModStep
  cases hb : a.testBit (i + 8) with
  | false =>
    simp only [hb, Bool.false_eq_true, if_false]
    by_contra hcon
    have hfix : (2 : Nat) ^ (i + 9) = 2 ^ (i + 8 + 1) := by congr 1
    have ht := testBit_true_of_mem (x := a) (n := i + 8) (by omega) (by omega)
    rw [hb] at ht
    exact Bool.false_ne_true ht
  | true =>
    simp only [hb, if_true]
    have ha1 : 2 ^ (i + 8) ≤ a := ge_of_testBit_true hb
    have hs : 285 <<< i = 285 * 2 ^ i := Nat.shiftLeft_eq _ _
    have hs1 : 2 ^ (i + 8) ≤ 285 <<< i := by
      rw [hs, Nat.add_comm i 8, Nat.pow_add]
      exact Nat.mul_le_mul_right _ (by norm_num)
    have hs2 : 285 <<< i < 2 ^ (i + 8 + 1) := by
      rw [hs]
      have h9 : (2 : Nat) ^ 9 * 2 ^ i = 2 ^ (i + 8 + 1) := by
        rw [← Nat.pow_add]
        congr 1
        omega
      rw [← h9]
      exact Nat.mul_lt_mul_of_lt_of_le (by norm_num) (Nat.le_refl _)
        (Nat.pos_pow_of_pos _ (by omega))
    have hfix : (2 : Nat) ^ (i + 9) = 2 ^ (i + 8 + 1) := by congr 1
    exact xor_lt_of_both_ge ha1 (by omega) hs1 hs2

theorem polyModStep_id {a i : Nat} (h : a < 2 ^ (i + 8)) : polyModStep a i = a := by
  unfold polyModStep
  rw [Nat.testBit_lt_two_pow h]
  simp

theorem polyModStep_lt_of_eq {x i B C : Nat} (hB : B = 2 ^ (i + 9))
    (hC : C = 2 ^ (i + 8)) (hx : x < B) : polyModStep x i < C := by
  subst hB
  subst hC
  exact polyModStep_lt hx

theorem polyModStep_id_of_eq {x i B : Nat} (hB : B = 2 ^ (i + 8)) (hx : x < B) :
    polyModStep x i = x := by
  subst hB
  exact polyModStep_id hx

theorem polyMod_lt {a : Nat} (h : a < 2 ^ 16) : polyMod a < 256 := by
  unfold polyMod
  have h7 : polyModStep a 7 < 2 ^ 15 :=
    polyModStep_lt_of_eq (i := 7) (B := 2 ^ 16) (C := 2 ^ 15)
      (by norm_num) (by norm_num) h
  have h6 := polyModStep_lt_of_eq (i := 6) (B := 2 ^ 15) (C := 2 ^ 14)
    (by norm_num) (by norm_num) h7
  have h5 := polyModStep_lt_of_eq (i := 5) (B := 2 ^ 14) (C := 2 ^ 13)
    (by norm_num) (by norm_num) h6
  have h4 := polyModStep_lt_of_eq (i := 4) (B := 2 ^ 13) (C := 2 ^ 12)
    (by norm_num) (by norm_num) h5
  have h3 := polyModStep_lt_of_eq (i := 3) (B := 2 ^ 12) (C := 2 ^ 11)
    (by norm_num) (by norm_num) h4
  have h2 := polyModStep_lt_of_eq (i := 2) (B := 2 ^ 11) (C := 2 ^ 10)
    (by norm_num) (by norm_num) h3
  have h1 := polyModStep_lt_of_eq (i := 1) (B := 2 ^ 10) (C := 2 ^ 9)
    (by norm_num) (by norm_num) h2
  have h0 := polyModStep_lt_of_eq (i := 0) (B := 2 ^ 9) (C := 2 ^ 8)
    (by norm_num) (by norm_num) h1
  omega

theorem polyMod_of_lt {a : Nat} (h : a < 256) : polyMod a = a := by
  unfold polyMod
  rw [polyModStep_id_of_eq (i := 7) (B := 2 ^ 15) (by norm_num) (by omega),
    polyModStep_id_of_eq (i := 6) (B := 2 ^ 14) (by norm_num) (by omega),
    polyModStep_id_of_eq (i := 5) (B := 2 ^ 13) (by norm_num) (by omega),
    polyModStep_id_of_eq (i := 4) (B := 2 ^ 12) (by norm_num) (by omega),
    polyModStep_id_of_eq (i := 3) (B := 2 ^ 11) (by norm_num) (by omega),
    polyModStep_id_of_eq (i := 2) (B := 2 ^ 10) (by norm_num) (by omega),
    polyModStep_id_of_eq (i := 1) (B := 2 ^ 9) (by norm_num) (by omega),
    polyModStep_id_of_eq (i := 0) (B := 2 ^ 8) (by norm_num) (by omega)]

/-- Congruence modulo the field polynomial. -/
def PolyCong (a b : Nat) : Prop := ∃ q, a ^^^ b = clmul q 285

theorem polyCong_refl (a : Nat) : PolyCong a a :=
  ⟨0, by rw [Nat.xor_self, clmul_zero_left]⟩

theorem polyCong_symm {a b : Nat} (h : PolyCong a b) : PolyCong b a := by
  obtain ⟨q, hq⟩ := h
  exact ⟨q, by rwa [Nat.xor_comm]⟩

theorem polyCong_trans {a b c : Nat} (h1 : PolyCong a b) (h2 : PolyCong b c) :
    PolyCong a c := by
  obtain ⟨q1, hq1⟩ := h1
  obtain ⟨q2, hq2⟩ := h2
  refine ⟨q1 ^^^ q2, ?_⟩
  rw [clmul_xor_left, ← hq1, ← hq2, Nat.xor_assoc, ← Nat.xor_assoc b b,
    Nat.xor_self, Nat.zero_xor]

theorem polyCong_polyModStep (a i : Nat) : PolyCong (polyModStep a i) a := by
  unfold polyModStep
  cases hb : a.testBit (i + 8) with
  | false =>
    simp only [hb, Bool.false_eq_true, if_false]
    exact polyCong_refl a
  | true =>
    simp only [hb, if_true]
    refine ⟨2 ^ i, ?_⟩
    rw [Nat.xor_comm a (285 <<< i), Nat.xor_cancel_right, clmul_two_pow_left,
      Nat.shiftLeft_eq, Nat.mul_comm]

theorem polyCong_polyMod (a : Nat) : PolyCong (polyMod a) a := by
  unfold polyMod
  exact polyCong_trans (polyCong_polyModStep _ 0) (polyCong_trans
    (polyCong_polyModStep _ 1) (polyCong_trans (polyCong_polyModStep _ 2)
    (polyCong_trans (polyCong_polyModStep _ 3) (polyCong_trans
    (polyCong_polyModStep _ 4) (polyCong_trans (polyCong_polyModStep _ 5)
    (polyCong_trans (polyCong_polyModStep _ 6) (polyCong_polyModStep _ 7)))))))

theorem polyCong_eq {a b : Nat} (h : PolyCong a b) (ha : a < 256) (hb : b < 256) :
    a = b := by
  obtain ⟨q, hq⟩ := h
  rcases eq_or_ne q 0 with rfl | hqne
  · rw [clmul_zero_left] at hq
    exact Nat.xor_eq_zero.mp hq
  · exfalso
    have h285 : (285 : Nat).log2 = 8 := by
      have h1 : 8 ≤ (285 : Nat).log2 := (Nat.le_log2 (by norm_num)).mpr (by norm_num)
      have h2 : (285 : Nat).log2 < 9 := (Nat.log2_lt (by norm_num)).mpr (by norm_num)
      omega
    have hge : 2 ^ 8 ≤ clmul q 285 := by
      have := le_clmul hqne (show (285 : Nat) ≠ 0 by norm_num)
      rw [h285] at this
      calc 2 ^ 8 ≤ 2 ^ (q.log2 + 8) := Nat.pow_le_pow_right (by omega) (by omega)
      _ ≤ clmul q 285 := this
    have hlt : a ^^^ b < 2 ^ 8 :=
      Nat.xor_lt_two_pow (by norm_num; omega) (by norm_num; omega)
    rw [hq] at hlt
    omega

theorem polyCong_clmul_left {a b : Nat} (c : Nat) (h : PolyCong a b) :
    PolyCong (clmul a c) (clmul b c) := by
  obtain ⟨q, hq⟩ := h
  refine ⟨clmul q c, ?_⟩
  rw [← clmul_xor_left, hq, clmul_comm (clmul q 285) c, ← clmul_assoc, clmul_comm c q]

theorem polyCong_xor {a b c d : Nat} (h1 : PolyCong a b) (h2 : PolyCong c d) :
    PolyCong (a ^^^ c) (b ^^^ d) := by
  obtain ⟨q1, hq1⟩ := h1
  obtain ⟨q2, hq2⟩ := h2
  refine ⟨q1 ^^^ q2, ?_⟩
  rw [clmul_xor_left, ← hq1, ← hq2, Nat.xor_assoc, Nat.xor_assoc]
  congr 1
  rw [xor_left_comm]

/-! ### The field GF(2⁸) -/

/-- An element of GF(2⁸) = GF(2)[x]/(0x11D).  This type also serves as the
byte type (Rust `u8`) of shard buffers: the codec's field elements are
exactly the bytes of the shards. -/
structure GF256 where
  val : Fin 256
  deriving DecidableEq

theorem GF256.val_inj {a b : GF256} (h : a.val.val = b.val.val) : a = b := by
  cases a with
  | mk av =>
    cases b with
    | mk bv =>
      congr 1
      exact Fin.ext h

/-- Build a field element from a byte value. -/
def gf (n : Nat) : GF256 := ⟨⟨n % 256, Nat.mod_lt n (by omega)⟩⟩

theorem xor_lt_256 {x y : Nat} (hx : x < 256) (hy : y < 256) : x ^^^ y < 256 := by
  have h := Nat.xor_lt_two_pow (x := x) (y := y) (n := 8) (by omega) (by omega)
  omega

theorem clmul_lt_65536 {x y : Nat} (hx : x < 256) (hy : y < 256) :
    clmul x y < 2 ^ 16 := by
  have h : clmul x y < 2 ^ (8 + 8) :=
    clmul_lt_two_pow (s := 8) (t := 8) (by omega) (by omega)
  omega

theorem gmul_lt_256 (x y : Nat) (hx : x < 256) (hy : y < 256) :
    polyMod (clmul x y) < 256 := by
  exact polyMod_lt (clmul_lt_65536 hx hy)

/-- Multiplicative-inverse table of GF(2⁸) for the polynomial 0x11D
(entry 0 is 0, matching the convention `0⁻¹ = 0`). -/
def gfInvTable : List Nat := [
  0, 1, 142, 244, 71, 167, 122, 186, 173, 157, 221, 152, 61, 170, 93, 150,
  216, 114, 192, 88, 224, 62, 76, 102, 144, 222, 85, 128, 160, 131, 75, 42,
  108, 237, 57, 81, 96, 86, 44, 138, 112, 208, 31, 74, 38, 139, 51, 110, 72,
  137, 111, 46, 164, 195, 64, 94, 80, 34, 207, 169, 171, 12, 21, 225, 54,
  95, 248, 213, 146, 78, 166, 4, 48, 136, 43, 30, 22, 103, 69, 147, 56, 35,
  104, 140, 129, 26, 37, 97, 19, 193, 203, 99, 151, 14, 55, 65, 36, 87, 202,
  91, 185, 196, 23, 77, 82, 141, 239, 179, 32, 236, 47, 50, 40, 209, 17,
  217, 233, 251, 218, 121, 219, 119, 6, 187, 132, 205, 254, 252, 27, 84,
  161, 29, 124, 204, 228, 176, 73, 49, 39, 45, 83, 105, 2, 245, 24, 223, 68,
  79, 155, 188, 15, 92, 11, 220, 189, 148, 172, 9, 199, 162, 28, 130, 159,
  198, 52, 194, 70, 5, 206, 59, 13, 60, 156, 8, 190, 183, 135, 229, 238,
  107, 235, 242, 191, 175, 197, 100, 7, 123, 149, 154, 174, 182, 18, 89,
  165, 53, 101, 184, 163, 158, 210, 247, 98, 90, 133, 125, 168, 58, 41, 113,
  200, 246, 249, 67, 215, 214, 16, 115, 118, 120, 153, 10, 25, 145, 20, 63,
  230, 240, 134, 177, 226, 241, 250, 116, 243, 180, 109, 33, 178, 106, 227,
  231, 181, 234, 3, 143, 211, 201, 66, 212, 232, 117, 127, 255, 126, 253]

instance : Zero GF256 := ⟨⟨⟨0, by omega⟩⟩⟩

instance : One GF256 := ⟨⟨⟨1, by omega⟩⟩⟩

instance : Add GF256 :=
  ⟨fun a b => ⟨⟨a.val.val ^^^ b.val.val, xor_lt_256 a.val.isLt b.val.isLt⟩⟩⟩

instance : Mul GF256 :=
  ⟨fun a b => ⟨⟨polyMod (clmul a.val.val b.val.val),
    gmul_lt_256 _ _ a.val.isLt b.val.isLt⟩⟩⟩

instance : Neg GF256 := ⟨fun a => a⟩

instance : Inv GF256 := ⟨fun a => gf (gfInvTable.getD a.val.val 0)⟩

theorem GF256.add_val (a b : GF256) : (a + b).val.val = a.val.val ^^^ b.val.val := rfl

theorem GF256.mul_val (a b : GF256) :
    (a * b).val.val = polyMod (clmul a.val.val b.val.val) := rfl

theorem GF256.zero_val : (0 : GF256).val.val = 0 := rfl

theorem GF256.one_val : (1 : GF256).val.val = 1 := rfl

theorem polyCong_clmul_right {a b : Nat} (c : Nat) (h : PolyCong a b) :
    PolyCong (clmul c a) (clmul c b) := by
  rw [clmul_comm c a, clmul_comm c b]
  exact polyCong_clmul_left c h

set_option maxRecDepth 1000000 in
/-- The check backing `mul_inv_cancel`, discharged by evaluation over all
256 field elements. -/
theorem gfInvTable_mul_check : ∀ a : Fin 256, a.val ≠ 0 →
    polyMod (clmul a.val (gfInvTable.getD a.val 0 % 256)) = 1 := by decide

instance : Field GF256 := Field.ofMinimalAxioms GF256
  (fun a b c => GF256.val_inj (by
    rw [GF256.add_val, GF256.add_val, GF256.add_val, GF256.add_val, Nat.xor_assoc]))
  (fun a => GF256.val_inj (by rw [GF256.add_val, GF256.zero_val, Nat.zero_xor]))
  (fun a => GF256.val_inj (by
    show (a + a).val.val = 0
    rw [GF256.add_val, Nat.xor_self]))
  (fun a b c => GF256.val_inj (by
    rw [GF256.mul_val, GF256.mul_val, GF256.mul_val, GF256.mul_val]
    have hA := a.val.isLt
    have hB := b.val.isLt
    have hC := c.val.isLt
    apply polyCong_eq _ (gmul_lt_256 _ _ (gmul_lt_256 _ _ hA hB) hC)
      (gmul_lt_256 _ _ hA (gmul_lt_256 _ _ hB hC))
    refine polyCong_trans (polyCong_polyMod _) (polyCong_trans
      (polyCong_clmul_left _ (polyCong_polyMod _)) ?_)
    refine polyCong_symm (polyCong_trans (polyCong_polyMod _) (polyCong_trans
      (polyCong_clmul_right _ (polyCong_polyMod _)) ?_))
    rw [clmul_assoc]
    exact polyCong_refl _))
  (fun a b => GF256.val_inj (by rw [GF256.mul_val, GF256.mul_val, clmul_comm]))
  (fun a => GF256.val_inj (by
    rw [GF256.mul_val, GF256.one_val, clmul_one_left, polyMod_of_lt a.val.isLt]))
  (fun a ha => GF256.val_inj (by
    have hval : a.val.val ≠ 0 := by
      intro h0
      exact ha (GF256.val_inj (h0.trans GF256.zero_val.symm))
    show polyMod (clmul a.val.val (gfInvTable.getD a.val.val 0 % 256)) = 1
    exact gfInvTable_mul_check a.val hval))
  (by
    apply GF256.val_inj
    show (gfInvTable.getD 0 0 % 256) = 0
    rfl)
  (fun a b c => GF256.val_inj (by
    rw [GF256.mul_val, GF256.add_val, GF256.add_val, GF256.mul_val, GF256.mul_val,
      clmul_xor_right]
    have hA := a.val.isLt
    have hB := b.val.isLt
    have hC := c.val.isLt
    have h1 : clmul a.val.val b.val.val < 2 ^ 16 := clmul_lt_65536 hA hB
    have h2 : clmul a.val.val c.val.val < 2 ^ 16 := clmul_lt_65536 hA hC
    apply polyCong_eq _ (polyMod_lt (by
      have := Nat.xor_lt_two_pow (n := 16) h1 h2
      omega))
      (xor_lt_256 (polyMod_lt h1) (polyMod_lt h2))
    exact polyCong_trans (polyCong_polyMod _)
      (polyCong_symm (polyCong_xor (polyCong_polyMod _) (polyCong_polyMod _)))))
  ⟨0, 1, fun h => by
    have := congrArg (fun x : GF256 => x.val.val) h
    simp [GF256.zero_val, GF256.one_val] at this⟩

/-! ### Matrices over GF(2⁸): computable inverse and the encoding matrix

The Reed–Solomon codec of the spec (§4.1) is `reed_solomon_erasure`, an
external crate; everything in this section is modelled from the spec's
words: a Vandermonde matrix over GF(2⁸) made systematic, so that any k
distinct rows form an invertible matrix. -/

/-- Cofactor-expansion determinant along row 0; computable by the kernel
(unlike `Matrix.det`, which sums over a permutation group) and provably
equal to it. -/
def detRec : (k : Nat) → Matrix (Fin k) (Fin k) GF256 → GF256
  | 0, _ => 1
  | k + 1, A => ∑ j : Fin (k + 1), (-1) ^ (j : ℕ) * A 0 j *
      detRec k (A.submatrix Fin.succ j.succAbove)

theorem detRec_eq : ∀ (k : Nat) (A : Matrix (Fin k) (Fin k) GF256), detRec k A = A.det
  | 0, A => by rw [detRec, Matrix.det_fin_zero]
  | k + 1, A => by
    rw [detRec, Matrix.det_succ_row_zero]
    refine Finset.sum_congr rfl fun j _ => ?_
    rw [detRec_eq k]

/-- Computable adjugate, entrywise via `detRec`. -/
def adjRec {k : Nat} (A : Matrix (Fin k) (Fin k) GF256) : Matrix (Fin k) (Fin k) GF256 :=
  fun i j => detRec k (A.updateRow j (Pi.single i 1))

theorem adjRec_eq {k : Nat} (A : Matrix (Fin k) (Fin k) GF256) : adjRec A = A.adjugate := by
  ext i j
  show detRec k (A.updateRow j (Pi.single i 1)) = _
  rw [Matrix.adjugate_apply, detRec_eq]

/-- Computable inverse over GF(2⁸): `(det A)⁻¹ • adjugate A`. -/
def matInv {k : Nat} (A : Matrix (Fin k) (Fin k) GF256) : Matrix (Fin k) (Fin k) GF256 :=
  fun i j => (detRec k A)⁻¹ * adjRec A i j

theorem matInv_eq {k : Nat} (A : Matrix (Fin k) (Fin k) GF256) :
    matInv A = A.det⁻¹ • A.adjugate := by
  ext i j
  show (detRec k A)⁻¹ * adjRec A i j = _
  rw [detRec_eq, adjRec_eq, Matrix.smul_apply, smul_eq_mul]

theorem mul_matInv {k : Nat} (A : Matrix (Fin k) (Fin k) GF256) (h : A.det ≠ 0) :
    A * matInv A = 1 := by
  rw [matInv_eq, Matrix.mul_smul, Matrix.mul_adjugate, smul_smul,
    inv_mul_cancel₀ h, one_smul]

theorem matInv_mul {k : Nat} (A : Matrix (Fin k) (Fin k) GF256) (h : A.det ≠ 0) :
    matInv A * A = 1 := by
  rw [matInv_eq, Matrix.smul_mul, Matrix.adjugate_mul, smul_smul,
    inv_mul_cancel₀ h, one_smul]

theorem matInv_det_ne {k : Nat} (A : Matrix (Fin k) (Fin k) GF256) (h : A.det ≠ 0) :
    (matInv A).det ≠ 0 := by
  intro h0
  have h1 := congrArg Matrix.det (matInv_mul A h)
  rw [Matrix.det_mul, h0, Matrix.det_one, zero_mul] at h1
  exact zero_ne_one h1

/-- The evaluation point of a matrix row: the field element with that byte
value (rows are distinct whenever the row count is at most 256). -/
def rsPoint (r : Nat) : GF256 := gf r

theorem gf_inj {a b : Nat} (ha : a < 256) (hb : b < 256) (h : gf a = gf b) : a = b := by
  have := congrArg (fun x : GF256 => x.val.val) h
  simp only [gf] at this
  omega

/-- The n × k Vandermonde matrix of §4.1 (row r, column c holds rᶜ). -/
def rsVand (k n : Nat) : Matrix (Fin n) (Fin k) GF256 :=
  fun r c => rsPoint r.val ^ c.val

/-- Its top k × k block. -/
def rsVandTop (k : Nat) : Matrix (Fin k) (Fin k) GF256 :=
  fun r c => rsPoint r.val ^ c.val

/-- The systematic n × k encoding matrix `V * (top V)⁻¹` of the
spec-modelled codec: identity on the first k rows, parity rows below. -/
def rsMatrix (k n : Nat) : Matrix (Fin n) (Fin k) GF256 :=
  rsVand k n * matInv (rsVandTop k)

theorem rsVandTop_det_ne {k : Nat} (hk : k ≤ 256) : (rsVandTop k).det ≠ 0 := by
  have he : rsVandTop k = Matrix.vandermonde (fun i : Fin k => gf i.val) := by
    ext i j
    rfl
  rw [he]
  refine Matrix.det_vandermonde_ne_zero_iff.mpr ?_
  intro i j hij
  exact Fin.ext (gf_inj (by omega) (by omega) hij)

/-- Any k distinct rows of the n × k Vandermonde matrix form an invertible
matrix (the heart of k-of-n reconstruction). -/
theorem rsVand_submatrix_det_ne {k n : Nat} (hn : n ≤ 256) (sel : Fin k → Fin n)
    (hsel : Function.Injective sel) :
    ((rsVand k n).submatrix sel id).det ≠ 0 := by
  have he : (rsVand k n).submatrix sel id =
      Matrix.vandermonde (fun i : Fin k => gf (sel i).val) := by
    ext i j
    rfl
  rw [he]
  refine Matrix.det_vandermonde_ne_zero_iff.mpr ?_
  intro i j hij
  exact hsel (Fin.ext (gf_inj (by omega) (by omega) hij))

theorem rsMatrix_submatrix_eq {k n : Nat} (sel : Fin k → Fin n) :
    (rsMatrix k n).submatrix sel id = (rsVand k n).submatrix sel id * matInv (rsVandTop k) := by
  rw [rsMatrix, Matrix.submatrix_mul _ _ sel id id Function.bijective_id,
    Matrix.submatrix_id_id]

theorem rsMatrix_submatrix_det_ne {k n : Nat} (hk : k ≤ 256) (hn : n ≤ 256)
    (sel : Fin k → Fin n) (hsel : Function.Injective sel) :
    ((rsMatrix k n).submatrix sel id).det ≠ 0 := by
  rw [rsMatrix_submatrix_eq, Matrix.det_mul]
  exact mul_ne_zero (rsVand_submatrix_det_ne hn sel hsel)
    (matInv_det_ne _ (rsVandTop_det_ne hk))

/-- The systematic property: the first k rows of the encoding matrix are
the identity, so data shards pass through encoding unchanged. -/
theorem rsMatrix_top {k n : Nat} (hk : k ≤ 256) (hkn : k ≤ n) :
    (rsMatrix k n).submatrix (Fin.castLE hkn) id = 1 := by
  have he : (rsVand k n).submatrix (Fin.castLE hkn) id = rsVandTop k := by
    ext i j
    rfl
  rw [rsMatrix_submatrix_eq, he]
  exact mul_matInv _ (rsVandTop_det_ne hk)

/-- Reconstruction: from any k distinct rows of the encoded matrix `M * D`,
inverting the corresponding row-submatrix of `M` recovers `D` exactly. -/
theorem rs_reconstruct {k n w : Nat} (hk : k ≤ 256) (hn : n ≤ 256)
    (sel : Fin k → Fin n) (hsel : Function.Injective sel)
    (D : Matrix (Fin k) (Fin w) GF256) :
    matInv ((rsMatrix k n).submatrix sel id) * ((rsMatrix k n * D).submatrix sel id) = D := by
  have hD : (rsMatrix k n * D).submatrix sel id = (rsMatrix k n).submatrix sel id * D := by
    rw [Matrix.submatrix_mul _ _ sel id id Function.bijective_id, Matrix.submatrix_id_id]
  rw [hD, ← Matrix.mul_assoc,
    matInv_mul _ (rsMatrix_submatrix_det_ne hk hn sel hsel), Matrix.one_mul]

/-! ### file.rs: Shard, Shards, Metadata, File -/

/-- Byte strings (contents of Rust `Vec<u8>` buffers and `String`s); bytes
are GF(2⁸) elements. -/
abbrev Bytes := List GF256

/-- `SHARD_SIZE` (file.rs:5). -/
def SHARD_SIZE : Nat := 64

/-- `Shard` (file.rs:34–38): a buffer and its index in the shard vector. -/
structure Shard where
  index : Nat
  data : Bytes
  deriving DecidableEq

/-- `Shards` (file.rs:7–10): sparse vector of optional shard buffers. -/
structure Shards where
  inner : List (Option Bytes)
  deriving DecidableEq

/-- `Shards::insert` (file.rs:57–59): unconditional overwrite of slot
`index`; indexing panics (`none`) when out of bounds. -/
def Shards.insert (s : Shards) (shard : Bytes) (index : Nat) : Option Shards :=
  if index < s.inner.length then some ⟨s.inner.set index (some shard)⟩ else none

/-- `Shards::delete` (file.rs:61–63): clear slot `index`; indexing panics
(`none`) when out of bounds. -/
def Shards.delete (s : Shards) (index : Nat) : Option Shards :=
  if index < s.inner.length then some ⟨s.inner.set index none⟩ else none

/-- `Shards::merge` (file.rs:65–69): place the shard's data in its slot only
if that slot is absent; indexing `self.inner[shard.index]` panics (`none`)
when `shard.index` is out of bounds. -/
def Shards.merge (s : Shards) (sh : Shard) : Option Shards :=
  if h : sh.index < s.inner.length then
    some (if (s.inner.get ⟨sh.index, h⟩).isNone
      then ⟨s.inner.set sh.index (some sh.data)⟩ else s)
  else none

/-- `Shards::present` (file.rs:71–73): number of occupied slots. -/
def Shards.present (s : Shards) : Nat :=
  (s.inner.filter (fun d => d.isSome)).length

/-- `Shards::present_iter` (file.rs:75–80, 17–31): the present shards in
ascending index order, each an owned copy. -/
def Shards.present_iter (s : Shards) : List Shard :=
  s.inner.enum.filterMap (fun p => p.2.map (fun data => ⟨p.1, data⟩))

/-- `Shards::size` (file.rs:82–87). -/
def Shards.size (s : Shards) : Nat :=
  (s.inner.map (fun d => (d.getD []).length)).sum

/-- `Metadata` (file.rs:90–95). -/
structure Metadata where
  len : Nat
  data_shards : Nat
  parity_shards : Nat
  deriving DecidableEq

/-- `File` (file.rs:97–101). -/
structure File where
  meta : Metadata
  shards : Shards
  deriving DecidableEq

/-- `File::empty` (file.rs:104–110). -/
def File.empty (meta : Metadata) : File :=
  ⟨meta, ⟨List.replicate (meta.data_shards + meta.parity_shards) none⟩⟩

/-! ### The spec-modelled codec operations -/

/-- Modelled from the spec: `ReedSolomon::new(k, m)` of the external codec
crate.  §4.1: "A codec instantiation with (k, m) where k = 0 is rejected";
a Reed–Solomon code over GF(2⁸) (§4.1) has at most 256 distinct evaluation
points, so totals beyond 256 are likewise rejected (as in the crate's
constructor). -/
def rsNew (k m : Nat) : Option Unit :=
  if k = 0 ∨ m = 0 ∨ k + m > 256 then none else some ()

/-- Fuel-driven worker for `bytes.chunks(SHARD_SIZE)`. -/
def chunks64Aux : Nat → Bytes → List Bytes
  | 0, _ => []
  | f + 1, l => if l = [] then [] else l.take 64 :: chunks64Aux f (l.drop 64)

/-- `bytes.chunks(SHARD_SIZE)` (file.rs:114, 121–131): split into chunks of
64 bytes, the last possibly shorter; the empty string has no chunks. -/
def chunks64 (l : Bytes) : List Bytes := chunks64Aux l.length l

/-- One 64-byte data buffer: `vec![0; SHARD_SIZE]` with the chunk written
into its prefix (`write_all`, file.rs:121–131). -/
def padChunk (c : Bytes) : Bytes := c ++ List.replicate (64 - c.length) 0

/-- The k × 64 data matrix formed by the padded chunks. -/
def dataMatrix (bufs : List Bytes) (k : Nat) : Matrix (Fin k) (Fin 64) GF256 :=
  fun i j => (bufs.getD i []).getD j 0

/-- Row `i` of a GF(2⁸) matrix with 64 columns, as a byte buffer. -/
def matRowBytes {rows : Nat} (M : Matrix (Fin rows) (Fin 64) GF256) (i : Nat) : Bytes :=
  if h : i < rows then (List.finRange 64).map (fun c => M ⟨i, h⟩ c) else []

/-- `File::encode` (file.rs:112–151).  The parity computation performed by
the external codec's `r.encode` is modelled from the spec (§4.1): parity
buffer r holds row r of the systematic Vandermonde matrix applied to the
data matrix; the first k buffers are the padded chunks themselves. -/
def File.encode (content : Bytes) : Option File :=
  let data_shards := (chunks64 content).length
  let parity_shards := data_shards
  match rsNew data_shards parity_shards with
  | none => none
  | some _ =>
    let bufs := (chunks64 content).map padChunk
    let n := data_shards + parity_shards
    let D := dataMatrix bufs data_shards
    let shardsList := (List.range n).map (fun r =>
      if r < data_shards then some (bufs.getD r [])
      else some (matRowBytes (rsMatrix data_shards n * D) r))
    some ⟨⟨content.length, data_shards, parity_shards⟩, ⟨shardsList⟩⟩

/-- `File::can_decode` (file.rs:178–180). -/
def File.can_decode (f : File) : Bool :=
  decide (f.meta.data_shards ≤ f.shards.present)

/-- Modelled from the spec: `reconstruct` of the external codec.  §4.1:
"fails if present count < k.  Otherwise the codec reconstructs the absent
data shards (it may leave parity holes alone)."  The reconstruction solves
the k × k system given by the first k present rows of the encoding matrix;
present slots are left untouched. -/
def rsReconstruct (inner : List (Option Bytes)) (k m : Nat) :
    Option (List (Option Bytes)) :=
  let n := k + m
  let presentIdx := (List.range n).filter (fun i => (inner.getD i none).isSome)
  if k ≤ presentIdx.length then
    let A : Matrix (Fin k) (Fin k) GF256 := fun i j =>
      if h : presentIdx.getD i 0 < n then rsMatrix k n ⟨presentIdx.getD i 0, h⟩ j
      else 0
    let S : Matrix (Fin k) (Fin 64) GF256 := fun i c =>
      ((inner.getD (presentIdx.getD i 0) none).getD []).getD c 0
    let recovered := matInv A * S
    some ((List.range n).map (fun i =>
      if i < k then
        match inner.getD i none with
        | some b => some b
        | none => some (matRowBytes recovered i)
      else inner.getD i none))
  else none

/-- Validity of one UTF-8 continuation byte. -/
def utf8Cont (b : GF256) : Bool := 128 ≤ b.val.val && b.val.val ≤ 191

/-- Validity of a byte list as UTF-8 (`String::from_utf8`, RFC 3629). -/
def utf8Valid : Bytes → Bool
  | [] => true
  | b :: rest =>
    let v := b.val.val
    if v ≤ 127 then utf8Valid rest
    else if 194 ≤ v && v ≤ 223 then
      match rest with
      | c1 :: rest2 => utf8Cont c1 && utf8Valid rest2
      | _ => false
    else if v == 224 then
      match rest with
      | c1 :: c2 :: rest2 =>
        (160 ≤ c1.val.val && c1.val.val ≤ 191) && utf8Cont c2 && utf8Valid rest2
      | _ => false
    else if (225 ≤ v && v ≤ 236) || v == 238 || v == 239 then
      match rest with
      | c1 :: c2 :: rest2 => utf8Cont c1 && utf8Cont c2 && utf8Valid rest2
      | _ => false
    else if v == 237 then
      match rest with
      | c1 :: c2 :: rest2 =>
        (128 ≤ c1.val.val && c1.val.val ≤ 159) && utf8Cont c2 && utf8Valid rest2
      | _ => false
    else if v == 240 then
      match rest with
      | c1 :: c2 :: c3 :: rest2 =>
        (144 ≤ c1.val.val && c1.val.val ≤ 191) && utf8Cont c2 && utf8Cont c3 &&
          utf8Valid rest2
      | _ => false
    else if 241 ≤ v && v ≤ 243 then
      match rest with
      | c1 :: c2 :: c3 :: rest2 =>
        utf8Cont c1 && utf8Cont c2 && utf8Cont c3 && utf8Valid rest2
      | _ => false
    else if v == 244 then
      match rest with
      | c1 :: c2 :: c3 :: rest2 =>
        (128 ≤ c1.val.val && c1.val.val ≤ 143) && utf8Cont c2 && utf8Cont c3 &&
          utf8Valid rest2
      | _ => false
    else false

/-- `File::decode` (file.rs:153–176): check `can_decode`, clone the shard
set, re-build the codec, reconstruct on the clone, take the first k
buffers, flatten, truncate to `len`, and validate as UTF-8. -/
def File.decode (f : File) : Option Bytes :=
  let meta := f.meta
  if ¬ f.can_decode then none
  else
    let data := f.shards
    match rsNew meta.data_shards meta.parity_shards with
    | none => none
    | some _ =>
      match rsReconstruct data.inner meta.data_shards meta.parity_shards with
      | none => none
      | some recon =>
        let content := ((recon.take meta.data_shards).filterMap id).flatten
        let content2 := content.take meta.len
        if utf8Valid content2 then some content2 else none

/-! ### network.rs and node.rs

`Node<N>` holds `files : Mutex<HashMap<String, File>>` and a network `N`.
In this embedding the store is passed explicitly, `discover()` results are
a parameter, and every `send(peer, cmd)` is collected into a returned list
in program order.  `none` models a Rust panic. -/

/-- Object names / peer identifiers are strings; equality is byte equality. -/
abbrev Name := Bytes

abbrev PeerId := Bytes

/-- `Command` (network.rs:3–8). -/
inductive Command where
  | Create (name : Name) (meta : Metadata)
  | Replicate (name : Name) (shard : Shard)
  | Request (name : Name)
  deriving DecidableEq

/-- The object store (`HashMap<String, File>`) as an association list with
unique keys. -/
abbrev Store := List (Name × File)

def storeLookup (st : Store) (name : Name) : Option File :=
  (st.find? (fun p => p.1 == name)).map Prod.snd

def storeUpdate (st : Store) (name : Name) (f : File) : Store :=
  st.map (fun p => if p.1 == name then (p.1, f) else p)

/-- `HashMap::insert`: replace the value under an existing key, or add the
binding. -/
def storeInsert (st : Store) (name : Name) (f : File) : Store :=
  if (storeLookup st name).isSome then storeUpdate st name f else st ++ [(name, f)]

/-- `HashMap::entry(name).or_insert(File::empty(meta))` as used by the
Create arm (node.rs:62–68). -/
def ensureEntry (st : Store) (name : Name) (meta : Metadata) : Store :=
  if (storeLookup st name).isSome then st else st ++ [(name, File.empty meta)]

/-- `Node::upload` (node.rs:25–41).  `peers` is `network.discover()`.
`none` models a panic: `File::encode(content).unwrap()` on a failed
encode, or `peers[shard.index() % peers.len()]` when `peers` is empty
(`% 0` panics in Rust). -/
def Node.upload (peers : List PeerId) (st : Store) (name : Name) (content : Bytes) :
    Option (Store × List (PeerId × Command)) :=
  match File.encode content with
  | none => none
  | some file =>
    let creates := peers.map (fun p => (p, Command.Create name file.meta))
    match (file.shards.present_iter).mapM (fun sh =>
        if h : peers.length ≠ 0 then
          some (peers.get ⟨sh.index % peers.length, Nat.mod_lt _ (by omega)⟩,
            Command.Replicate name sh)
        else none) with
    | none => none
    | some replicates => some (storeInsert st name file, creates ++ replicates)

/-- `Node::try_download` (node.rs:43–45). -/
def Node.try_download (st : Store) (name : Name) : Option Bytes :=
  (storeLookup st name).bind File.decode

/-- `Node::download` (node.rs:47–57): local decode, else broadcast
`Request` to every discovered peer and return absent. -/
def Node.download (peers : List PeerId) (st : Store) (name : Name) :
    Option Bytes × List (PeerId × Command) :=
  match Node.try_download st name with
  | some res => (some res, [])
  | none => (none, peers.map (fun p => (p, Command.Request name)))

/-- One iteration of the reactor loop `Node::run` (node.rs:59–96): handle
one received `(peer, cmd)`, returning the updated store and the sends;
`none` models a panic inside the handler (out-of-bounds `merge`). -/
def Node.step (st : Store) (peer : PeerId) (cmd : Command) :
    Option (Store × List (PeerId × Command)) :=
  match cmd with
  | Command.Create name meta => some (ensureEntry st name meta, [])
  | Command.Replicate name shard =>
      match storeLookup st name with
      | none => some (st, [])
      | some file =>
        match file.shards.merge shard with
        | none => none
        | some sh2 => some (storeUpdate st name ⟨file.meta, sh2⟩, [])
  | Command.Request name =>
      let shards := match storeLookup st name with
        | none => []
        | some file => file.shards.present_iter
      some (st, shards.map (fun sh => (peer, Command.Replicate name sh)))

/-- Sequential application of `Shards::merge` over a list of shards,
propagating a panic. -/
def mergeFold (s : Option Shards) (l : List Shard) : Option Shards :=
  l.foldl (fun acc sh => acc.bind (fun x => x.merge sh)) s

/-! ### Helper lemmas: chunking, padding, indexing -/

theorem chunks64_nil : chunks64 [] = [] := rfl

theorem chunks64Aux_nil : ∀ f, chunks64Aux f ([] : Bytes) = [] := by
  intro f
  cases f with
  | zero => rfl
  | succ f => simp [chunks64Aux]

theorem chunks64Aux_congr : ∀ {f1 f2 : Nat} (l : Bytes), l.length ≤ f1 →
    l.length ≤ f2 → chunks64Aux f1 l = chunks64Aux f2 l := by
  intro f1
  induction f1 with
  | zero =>
    intro f2 l h1 _
    have : l = [] := by
      cases l with
      | nil => rfl
      | cons a t => simp at h1
    subst this
    rw [chunks64Aux_nil, chunks64Aux_nil]
  | succ f1 ih =>
    intro f2 l h1 h2
    rcases eq_or_ne l [] with rfl | hl
    · rw [chunks64Aux_nil, chunks64Aux_nil]
    · obtain ⟨a, t, rfl⟩ : ∃ a t, l = a :: t := by
        cases l with
        | nil => exact absurd rfl hl
        | cons a t => exact ⟨a, t, rfl⟩
      obtain ⟨f2p, rfl⟩ : ∃ f2p, f2 = f2p + 1 := by
        cases f2 with
        | zero => simp at h2
        | succ f2 => exact ⟨f2, rfl⟩
      rw [chunks64Aux, chunks64Aux, if_neg hl, if_neg hl]
      have hlen : (a :: t).length = t.length + 1 := rfl
      have hd : ((a :: t).drop 64).length ≤ f1 := by
        rw [List.length_drop]
        omega
      have hd2 : ((a :: t).drop 64).length ≤ f2p := by
        rw [List.length_drop]
        omega
      rw [ih ((a :: t).drop 64) hd hd2]

theorem chunks64_ne {l : Bytes} (h : l ≠ []) :
    chunks64 l = l.take 64 :: chunks64 (l.drop 64) := by
  show chunks64Aux l.length l = _
  obtain ⟨a, t, rfl⟩ : ∃ a t, l = a :: t := by
    cases l with
    | nil => exact absurd rfl h
    | cons a t => exact ⟨a, t, rfl⟩
  rw [List.length_cons, chunks64Aux, if_neg h]
  congr 1
  refine chunks64Aux_congr _ ?_ (Nat.le_refl _)
  rw [List.length_drop]
  have : (a :: t).length = t.length + 1 := rfl
  omega

theorem chunks64_mem_le (l : Bytes) : ∀ c ∈ chunks64 l, c.length ≤ 64 := by
  rcases eq_or_ne l [] with rfl | h
  · simp [chunks64_nil]
  · rw [chunks64_ne h]
    intro c hc
    rcases List.mem_cons.mp hc with rfl | hc
    · have := List.length_take_le 64 l
      omega
    · have hlt : (l.drop 64).length < l.length := by
        rw [List.length_drop]
        have : l.length ≠ 0 := fun h0 => h (List.eq_nil_of_length_eq_zero h0)
        omega
      exact chunks64_mem_le (l.drop 64) c hc
termination_by l.length
decreasing_by
  rw [List.length_drop]
  have : l.length ≠ 0 := fun h0 => h (List.eq_nil_of_length_eq_zero h0)
  omega

theorem padChunk_length {c : Bytes} (h : c.length ≤ 64) : (padChunk c).length = 64 := by
  unfold padChunk
  rw [List.length_append, List.length_replicate]
  omega

/-- Concatenating the padded chunks and truncating to the original length
recovers the input. -/
theorem flatten_pad_take (l : Bytes) :
    (((chunks64 l).map padChunk).flatten).take l.length = l := by
  rcases eq_or_ne l [] with rfl | h
  · simp [chunks64_nil]
  · rw [chunks64_ne h]
    have hlt : (l.drop 64).length < l.length := by
      rw [List.length_drop]
      have : l.length ≠ 0 := fun h0 => h (List.eq_nil_of_length_eq_zero h0)
      omega
    have ih := flatten_pad_take (l.drop 64)
    rw [List.map_cons, List.flatten_cons]
    rcases le_or_lt l.length 64 with hle | hgt
    · have htake : l.take 64 = l := List.take_of_length_le (by omega)
      have hdrop : l.drop 64 = [] := List.drop_eq_nil_of_le (by omega)
      rw [htake, hdrop, chunks64_nil]
      simp only [List.map_nil, List.flatten_nil, List.append_nil]
      unfold padChunk
      rw [List.take_append_eq_append_take, List.take_of_length_le (Nat.le_refl _),
        Nat.sub_self, List.take_zero, List.append_nil]
    · have htl : (l.take 64).length = 64 := List.length_take_of_le (by omega)
      have hpc : padChunk (l.take 64) = l.take 64 := by
        unfold padChunk
        rw [htl, Nat.sub_self, List.replicate_zero, List.append_nil]
      rw [hpc, List.take_append_eq_append_take, htl,
        List.take_of_length_le (by rw [htl]; omega)]
      have hd : l.length - 64 = (l.drop 64).length := by
        rw [List.length_drop]
      rw [hd, ih]
      exact List.take_append_drop 64 l
termination_by l.length
decreasing_by
  rw [List.length_drop]
  have : l.length ≠ 0 := fun h0 => h (List.eq_nil_of_length_eq_zero h0)
  omega

/-- Reading a list back entrywise over `range` recovers the list. -/
theorem map_range_getD {α : Type} (l : List α) (d : α) :
    (List.range l.length).map (fun i => l.getD i d) = l := by
  apply List.ext_getElem
  · rw [List.length_map, List.length_range]
  · intro i h1 h2
    simp [List.getElem_map, List.getElem_range, List.getD_eq_getElem?_getD,
      List.getElem?_eq_getElem h2]

/-- Reading a 64-byte buffer back entrywise over `finRange 64`. -/
theorem map_finRange_getD (l : Bytes) (h : l.length = 64) :
    (List.finRange 64).map (fun c : Fin 64 => l.getD c.val 0) = l := by
  apply List.ext_getElem
  · rw [List.length_map, List.length_finRange, h]
  · intro i h1 h2
    simp only [List.getElem_map, List.getElem_finRange]
    rw [List.getD_eq_getElem?_getD, List.getElem?_eq_getElem (by simpa using h2)]
    simp [Fin.cast]

/-- Sequential application of `Shards::delete` over a list of slot indices,
propagating a panic. -/
def deleteFold (s : Option Shards) (l : List Nat) : Option Shards :=
  l.foldl (fun acc i => acc.bind (fun x => x.delete i)) s

/-- Counting present slots through `range`-indexing equals counting them in
the list itself. -/
theorem filter_range_isSome : ∀ (l : List (Option Bytes)),
    ((List.range l.length).filter (fun i => (l.getD i none).isSome)).length =
      (l.filter (fun d => d.isSome)).length
  | [] => rfl
  | a :: t => by
    have hmap : (List.map Nat.succ (List.range t.length)).filter
        (fun i => ((a :: t).getD i none).isSome) =
        List.map Nat.succ ((List.range t.length).filter
          (fun i => (t.getD i none).isSome)) := by
      rw [List.filter_map]
      rfl
    have ih := filter_range_isSome t
    rw [List.length_cons, List.range_succ_eq_map, List.filter_cons, hmap,
      List.filter_cons]
    cases a with
    | none =>
      simp only [show (((none : Option Bytes) :: t).getD 0 none).isSome = false from rfl,
        show (none : Option Bytes).isSome = false from rfl, Bool.false_eq_true,
        if_false, List.length_map]
      exact ih
    | some b =>
      simp only [show (((some b : Option Bytes) :: t).getD 0 none).isSome = true from rfl,
        show (some b : Option Bytes).isSome = true from rfl, if_true,
        List.length_cons, List.length_map]
      omega

theorem deleteFold_none (del : List Nat) : deleteFold none del = none := by
  induction del with
  | nil => rfl
  | cons j rest ih => simpa [deleteFold, List.foldl_cons] using ih

theorem delete_of_lt {sh : Shards} {j : Nat} (h : j < sh.inner.length) :
    sh.delete j = some ⟨sh.inner.set j none⟩ := by
  unfold Shards.delete
  rw [if_pos h]

/-- Deleting slots keeps the length and only blanks slots: every slot of the
result is absent or identical to the original slot. -/
theorem deleteFold_spec : ∀ (del : List Nat) (sh sh2 : Shards),
    deleteFold (some sh) del = some sh2 →
    sh2.inner.length = sh.inner.length ∧
    ∀ i, sh2.inner.getD i none = none ∨ sh2.inner.getD i none = sh.inner.getD i none := by
  intro del
  induction del with
  | nil =>
    intro sh sh2 h
    have heq : sh = sh2 := by simpa [deleteFold] using h
    subst heq
    exact ⟨rfl, fun i => Or.inr rfl⟩
  | cons j rest ih =>
    intro sh sh2 h
    rw [deleteFold, List.foldl_cons] at h
    have hred : ((some sh).bind fun x => x.delete j) = sh.delete j := rfl
    rw [hred] at h
    rcases hdel : sh.delete j with _ | sh1
    · exfalso
      rw [hdel] at h
      have : deleteFold none rest = some sh2 := h
      rw [deleteFold_none] at this
      cases this
    · rw [hdel] at h
      have h' : deleteFold (some sh1) rest = some sh2 := h
      obtain ⟨hlen, hslot⟩ := ih sh1 sh2 h'
      have hj : j < sh.inner.length := by
        by_contra hc
        unfold Shards.delete at hdel
        rw [if_neg hc] at hdel
        cases hdel
      have hsh1 : sh1 = ⟨sh.inner.set j none⟩ := by
        rw [delete_of_lt hj] at hdel
        cases hdel
        rfl
      subst hsh1
      refine ⟨by rw [hlen]; simp, fun i => ?_⟩
      rcases hslot i with hnone | heq
      · exact Or.inl hnone
      · rcases eq_or_ne i j with rfl | hne
        · rw [heq]
          left
          simp [List.getD_eq_getElem?_getD, List.getElem?_set_self, hj]
        · rw [heq]
          right
          simp [List.getD_eq_getElem?_getD, List.getElem?_set_ne (Ne.symm hne)]

theorem matRowBytes_length {rows : Nat} (M : Matrix (Fin rows) (Fin 64) GF256)
    {r : Nat} (h : r < rows) : (matRowBytes M r).length = 64 := by
  unfold matRowBytes
  rw [dif_pos h, List.length_map, List.length_finRange]

theorem matRowBytes_getD {rows : Nat} (M : Matrix (Fin rows) (Fin 64) GF256)
    {r : Nat} (h : r < rows) (c : Fin 64) :
    (matRowBytes M r).getD c.val 0 = M ⟨r, h⟩ c := by
  unfold matRowBytes
  rw [dif_pos h, List.getD_eq_getElem?_getD,
    List.getElem?_eq_getElem (by simp [c.isLt])]
  simp

/-- Unpacking of a successful `File.encode`. -/
theorem encode_spec {s : Bytes} {f : File} (henc : File.encode s = some f) :
    (chunks64 s).length ≠ 0 ∧ (chunks64 s).length + (chunks64 s).length ≤ 256 ∧
    f.meta = ⟨s.length, (chunks64 s).length, (chunks64 s).length⟩ ∧
    f.shards.inner = (List.range ((chunks64 s).length + (chunks64 s).length)).map
      (fun r =>
        if r < (chunks64 s).length
        then some (((chunks64 s).map padChunk).getD r [])
        else some (matRowBytes
          (rsMatrix (chunks64 s).length ((chunks64 s).length + (chunks64 s).length) *
            dataMatrix ((chunks64 s).map padChunk) (chunks64 s).length) r)) := by
  by_cases hcond : (chunks64 s).length = 0 ∨ (chunks64 s).length = 0 ∨
      (chunks64 s).length + (chunks64 s).length > 256
  · exfalso
    unfold File.encode rsNew at henc
    simp only [] at henc
    rw [if_pos hcond] at henc
    cases henc
  · unfold File.encode rsNew at henc
    simp only [] at henc
    rw [if_neg hcond] at henc
    simp only [Option.some.injEq] at henc
    subst henc
    refine ⟨by omega, by omega, rfl, rfl⟩

/-- Row `r` of the data matrix, as bytes, is the r-th buffer. -/
theorem dataMatrix_row {bufs : List Bytes} {k : Nat} {r : Nat} (hr : r < k)
    (hlen : bufs.length = k) (hbuf : ∀ b ∈ bufs, b.length = 64) :
    matRowBytes (dataMatrix bufs k) r = bufs.getD r [] := by
  unfold matRowBytes
  rw [dif_pos hr]
  have hb64 : (bufs.getD r []).length = 64 := by
    rw [List.getD_eq_getElem?_getD, List.getElem?_eq_getElem (by omega)]
    exact hbuf _ (List.getElem_mem _)
  have : (fun c : Fin 64 => dataMatrix bufs k ⟨r, hr⟩ c) =
      (fun c : Fin 64 => (bufs.getD r []).getD c.val 0) := rfl
  rw [this, map_finRange_getD _ hb64]

/-- Data rows pass through the systematic encoding matrix unchanged. -/
theorem mulD_top_row {k n : Nat} (hk : k ≤ 256) (hkn : k ≤ n) {bufs : List Bytes}
    (hlen : bufs.length = k) (hbuf : ∀ b ∈ bufs, b.length = 64) {r : Nat} (hr : r < k) :
    matRowBytes (rsMatrix k n * dataMatrix bufs k) r = bufs.getD r [] := by
  have hrn : r < n := by omega
  have hsub : (rsMatrix k n * dataMatrix bufs k).submatrix (Fin.castLE hkn) id =
      dataMatrix bufs k := by
    rw [Matrix.submatrix_mul _ _ _ id id Function.bijective_id, Matrix.submatrix_id_id,
      rsMatrix_top hk hkn, Matrix.one_mul]
  unfold matRowBytes
  rw [dif_pos hrn]
  have hentry : (fun c : Fin 64 => (rsMatrix k n * dataMatrix bufs k) ⟨r, hrn⟩ c) =
      (fun c : Fin 64 => dataMatrix bufs k ⟨r, hr⟩ c) := by
    funext c
    exact congrFun (congrFun hsub ⟨r, hr⟩) c
  rw [hentry]
  have hb64 : (bufs.getD r []).length = 64 := by
    rw [List.getD_eq_getElem?_getD, List.getElem?_eq_getElem (by omega)]
    exact hbuf _ (List.getElem_mem _)
  have : (fun c : Fin 64 => dataMatrix bufs k ⟨r, hr⟩ c) =
      (fun c : Fin 64 => (bufs.getD r []).getD c.val 0) := rfl
  rw [this, map_finRange_getD _ hb64]

theorem encode_bufs_length (s : Bytes) :
    ∀ b ∈ (chunks64 s).map padChunk, b.length = 64 := by
  intro b hb
  obtain ⟨c, hc, rfl⟩ := List.mem_map.mp hb
  exact padChunk_length (chunks64_mem_le s c hc)

/-- Every slot of an encoded file holds the corresponding row of the
encoded matrix `M * D`. -/
theorem encode_slot {s : Bytes} {f : File} (henc : File.encode s = some f) :
    ∀ r, r < (chunks64 s).length + (chunks64 s).length →
      f.shards.inner.getD r none = some (matRowBytes
        (rsMatrix (chunks64 s).length ((chunks64 s).length + (chunks64 s).length) *
          dataMatrix ((chunks64 s).map padChunk) (chunks64 s).length) r) := by
  obtain ⟨hk0, h256, hmeta, hinner⟩ := encode_spec henc
  intro r hr
  rw [hinner, List.getD_eq_getElem?_getD,
    List.getElem?_eq_getElem (by rw [List.length_map, List.length_range]; exact hr)]
  rw [List.getElem_map, List.getElem_range]
  rcases Nat.lt_or_ge r (chunks64 s).length with hrk | hrk
  · rw [if_pos hrk]
    simp only [Option.getD_some, Option.some.injEq]
    rw [mulD_top_row (by omega) (by omega) (by rw [List.length_map]) 
      (encode_bufs_length s) hrk]
  · rw [if_neg (by omega)]
    rfl

theorem rsReconstruct_of_present {k : Nat} (h256 : k + k ≤ 256)
    (bufs : List Bytes) (hblen : bufs.length = k)
    (hbuf : ∀ b ∈ bufs, b.length = 64)
    {inner : List (Option Bytes)} (hlen : inner.length = k + k)
    (hslot : ∀ r, r < k + k → inner.getD r none = none ∨
      inner.getD r none = some (matRowBytes
        (rsMatrix k (k + k) * dataMatrix bufs k) r))
    (hpres : k ≤ (inner.filter (fun d => d.isSome)).length) :
    ∃ recon, rsReconstruct inner k k = some recon ∧
      (recon.take k).filterMap id = bufs := by
  unfold rsReconstruct
  simp only []
  set P : List Nat :=
    (List.range (k + k)).filter (fun i => (inner.getD i none).isSome) with hP
  have hplen : P.length = (inner.filter (fun d => d.isSome)).length := by
    rw [hP, ← hlen]
    exact filter_range_isSome inner
  have hp : k ≤ P.length := by omega
  rw [if_pos hp]
  have px : ∀ x ∈ P, x < k + k ∧ (inner.getD x none).isSome = true := by
    intro x hx
    rw [hP] at hx
    have hm := List.mem_filter.mp hx
    exact ⟨List.mem_range.mp hm.1, hm.2⟩
  have pmem : ∀ i : Fin k, P.getD i.val 0 ∈ P := by
    intro i
    rw [List.getD_eq_getElem?_getD,
      List.getElem?_eq_getElem (Nat.lt_of_lt_of_le i.isLt hp)]
    exact List.getElem_mem _
  have pbound : ∀ i : Fin k, P.getD i.val 0 < k + k := fun i => (px _ (pmem i)).1
  have psome : ∀ i : Fin k, (inner.getD (P.getD i.val 0) none).isSome = true :=
    fun i => (px _ (pmem i)).2
  have pnodup : P.Nodup := by
    rw [hP]
    exact (List.nodup_range _).filter _
  set selFin : Fin k → Fin (k + k) := fun i => ⟨P.getD i.val 0, pbound i⟩ with hsel
  have pinj : Function.Injective selFin := by
    intro i j hij
    have hv : P.getD i.val 0 = P.getD j.val 0 := congrArg Fin.val hij
    rw [List.getD_eq_getElem?_getD,
      List.getElem?_eq_getElem (Nat.lt_of_lt_of_le i.isLt hp),
      List.getD_eq_getElem?_getD,
      List.getElem?_eq_getElem (Nat.lt_of_lt_of_le j.isLt hp)] at hv
    simp only [Option.getD_some] at hv
    have := List.Nodup.getElem_inj_iff pnodup |>.mp hv
    exact Fin.ext this
  have slotval : ∀ i : Fin k, inner.getD (P.getD i.val 0) none =
      some (matRowBytes (rsMatrix k (k + k) * dataMatrix bufs k) (P.getD i.val 0)) := by
    intro i
    rcases hslot _ (pbound i) with hnone | hval
    · exfalso
      have hc := psome i
      rw [hnone] at hc
      cases hc
    · exact hval
  refine ⟨_, rfl, ?_⟩
  have hA : (fun (i : Fin k) (j : Fin k) =>
      if h : P.getD i.val 0 < k + k then rsMatrix k (k + k) ⟨P.getD i.val 0, h⟩ j else 0) =
      (rsMatrix k (k + k)).submatrix selFin id := by
    funext i j
    rw [dif_pos (pbound i)]
    rfl
  have hS : (fun (i : Fin k) (c : Fin 64) =>
      List.getD ((inner.getD (P.getD i.val 0) none).getD []) c.val 0) =
      (rsMatrix k (k + k) * dataMatrix bufs k).submatrix selFin id := by
    funext i c
    rw [slotval i]
    show (matRowBytes (rsMatrix k (k + k) * dataMatrix bufs k) (P.getD i.val 0)).getD c.val 0 = _
    rw [matRowBytes_getD _ (pbound i) c]
    rfl
  rw [hA, hS, rs_reconstruct (by omega) h256 selFin pinj (dataMatrix bufs k)]
  rw [← List.map_take, List.take_range]
  have hmin : min k (k + k) = k := by omega
  rw [hmin]
  have hcong : (List.range k).map (fun i =>
      if i < k then
        match inner.getD i none with
        | some b => some b
        | none => some (matRowBytes (dataMatrix bufs k) i)
      else inner.getD i none) = (List.range k).map (fun i => some (bufs.getD i [])) := by
    apply List.map_congr_left
    intro i hi
    have hik : i < k := List.mem_range.mp hi
    rw [if_pos hik]
    rcases hslot i (by omega) with hnone | hval
    · rw [hnone]
      show some (matRowBytes (dataMatrix bufs k) i) = _
      rw [dataMatrix_row hik hblen hbuf]
    · rw [hval]
      show some (matRowBytes (rsMatrix k (k + k) * dataMatrix bufs k) i) = _
      rw [mulD_top_row (by omega) (by omega) hblen hbuf hik]
  rw [hcong, List.filterMap_map]
  show (List.range k).filterMap (some ∘ fun i => bufs.getD i []) = bufs
  rw [List.filterMap_eq_map, ← hblen]
  exact map_range_getD bufs []

/-- Main decode lemma: an encoded file with any set of slots deleted
decodes to the original bytes iff at least k slots remain present. -/
theorem decode_deleted {s : Bytes} {f : File} (hutf : utf8Valid s = true)
    (henc : File.encode s = some f) {del : List Nat} {sh2 : Shards}
    (hdel : deleteFold (some f.shards) del = some sh2) :
    (f.meta.data_shards ≤ sh2.present →
        (⟨f.meta, sh2⟩ : File).can_decode = true ∧
        (⟨f.meta, sh2⟩ : File).decode = some s) ∧
    (sh2.present < f.meta.data_shards →
        (⟨f.meta, sh2⟩ : File).can_decode = false ∧
        (⟨f.meta, sh2⟩ : File).decode = none ∧
        rsReconstruct sh2.inner f.meta.data_shards f.meta.parity_shards = none) := by
  obtain ⟨hk0, h256, hmeta, hinner⟩ := encode_spec henc
  have hinlen : f.shards.inner.length = (chunks64 s).length + (chunks64 s).length := by
    rw [hinner, List.length_map, List.length_range]
  obtain ⟨hlen2, hslots2⟩ := deleteFold_spec del f.shards sh2 hdel
  have hlen2n : sh2.inner.length = (chunks64 s).length + (chunks64 s).length := by
    rw [hlen2, hinlen]
  have hslot : ∀ r, r < (chunks64 s).length + (chunks64 s).length →
      sh2.inner.getD r none = none ∨
      sh2.inner.getD r none = some (matRowBytes
        (rsMatrix (chunks64 s).length ((chunks64 s).length + (chunks64 s).length) *
          dataMatrix ((chunks64 s).map padChunk) (chunks64 s).length) r) := by
    intro r hr
    rcases hslots2 r with hnone | heq
    · exact Or.inl hnone
    · rw [heq]
      exact Or.inr (encode_slot henc r hr)
  have hpresent : sh2.present = (sh2.inner.filter (fun d => d.isSome)).length := rfl
  have hds : (⟨f.meta, sh2⟩ : File).meta.data_shards = (chunks64 s).length := by
    rw [hmeta]
  have hds2 : f.meta.data_shards = (chunks64 s).length := by rw [hmeta]
  constructor
  · intro hpres
    rw [hds2] at hpres
    have hcd : (⟨f.meta, sh2⟩ : File).can_decode = true := by
      unfold File.can_decode
      rw [hds]
      exact decide_eq_true hpres
    refine ⟨hcd, ?_⟩
    unfold File.decode
    simp only []
    rw [if_neg (not_not_intro hcd)]
    show (match rsNew (⟨f.meta, sh2⟩ : File).meta.data_shards
        (⟨f.meta, sh2⟩ : File).meta.parity_shards with
      | none => none
      | some _ => _) = some s
    rw [hmeta]
    show (match rsNew (chunks64 s).length (chunks64 s).length with
      | none => none
      | some _ => _) = some s
    rw [show rsNew (chunks64 s).length (chunks64 s).length = some () by
      unfold rsNew
      rw [if_neg (by omega)]]
    obtain ⟨recon, hrecon, hfm⟩ := rsReconstruct_of_present h256
      ((chunks64 s).map padChunk) (by rw [List.length_map])
      (encode_bufs_length s) hlen2n hslot (by rw [hpresent] at hpres; exact hpres)
    rw [hrecon]
    simp only []
    rw [hfm]
    rw [show ((chunks64 s).map padChunk).flatten.take (List.length s) = s from
      flatten_pad_take s]
    rw [hutf]
    simp
  · intro hpres
    rw [hds2] at hpres
    have hcd : (⟨f.meta, sh2⟩ : File).can_decode = false := by
      unfold File.can_decode
      rw [hds, show (⟨f.meta, sh2⟩ : File).shards.present = sh2.present from rfl]
      exact decide_eq_false (by omega)
    refine ⟨hcd, ?_, ?_⟩
    · unfold File.decode
      simp only []
      rw [if_pos (by rw [hcd]; exact Bool.false_ne_true)]
    · rw [hmeta]
      show rsReconstruct sh2.inner (chunks64 s).length (chunks64 s).length = none
      unfold rsReconstruct
      simp only []
      rw [if_neg]
      rw [← hlen2n, filter_range_isSome]
      rw [hpresent] at hpres
      omega

/-! ### Merge algebra (C3, C10) -/

theorem merge_length {s s2 : Shards} {sh : Shard} (h : s.merge sh = some s2) :
    s2.inner.length = s.inner.length := by
  unfold Shards.merge at h
  by_cases hb : sh.index < s.inner.length
  · rw [dif_pos hb] at h
    simp only [Option.some.injEq] at h
    subst h
    by_cases hn : (s.inner.get ⟨sh.index, hb⟩).isNone
    · rw [if_pos hn]
      simp
    · rw [if_neg hn]
  · rw [dif_neg hb] at h
    cases h

theorem merge_oob {s : Shards} {sh : Shard} (h : ¬ sh.index < s.inner.length) :
    s.merge sh = none := by
  unfold Shards.merge
  rw [dif_neg h]

theorem get_set_other {l : List (Option Bytes)} {i j : Nat} (hij : i ≠ j)
    (a : Option Bytes) (hj : j < (l.set i a).length) (hj2 : j < l.length) :
    (l.set i a).get ⟨j, hj⟩ = l.get ⟨j, hj2⟩ := by
  rw [List.get_eq_getElem, List.get_eq_getElem]
  exact List.getElem_set_ne hij _

/-- One merge step of `mergeFold`. -/
theorem mergeStep_comm (x y : Shard) (hxy : x.index = y.index → x.data = y.data)
    (z : Option Shards) :
    ((z.bind (fun s => s.merge x)).bind (fun s => s.merge y)) =
      ((z.bind (fun s => s.merge y)).bind (fun s => s.merge x)) := by
  cases z with
  | none => rfl
  | some s =>
    show (s.merge x).bind (fun s => s.merge y) = (s.merge y).bind (fun s => s.merge x)
    by_cases hidx : x.index = y.index
    · have hd : x.data = y.data := hxy hidx
      have hx : x = y := by
        cases x
        cases y
        simp only [Shard.mk.injEq]
        exact ⟨hidx, hd⟩
      rw [hx]
    · by_cases hxb : x.index < s.inner.length
      · by_cases hyb : y.index < s.inner.length
        · -- both in bounds, distinct indices
          rw [show s.merge x = some (if (s.inner.get ⟨x.index, hxb⟩).isNone
              then ⟨s.inner.set x.index (some x.data)⟩ else s) from by
            unfold Shards.merge; rw [dif_pos hxb]]
          rw [show s.merge y = some (if (s.inner.get ⟨y.index, hyb⟩).isNone
              then ⟨s.inner.set y.index (some y.data)⟩ else s) from by
            unfold Shards.merge; rw [dif_pos hyb]]
          by_cases hxe : (s.inner.get ⟨x.index, hxb⟩).isNone <;>
            by_cases hye : (s.inner.get ⟨y.index, hyb⟩).isNone
          · rw [if_pos hxe, if_pos hye]
            show Shards.merge _ y = Shards.merge _ x
            unfold Shards.merge
            rw [dif_pos (by simpa using hyb), dif_pos (by simpa using hxb)]
            have hgy : (List.get (s.inner.set x.index (some x.data))
                ⟨y.index, by simpa using hyb⟩) = s.inner.get ⟨y.index, hyb⟩ :=
              get_set_other hidx _ _ hyb
            have hgx : (List.get (s.inner.set y.index (some y.data))
                ⟨x.index, by simpa using hxb⟩) = s.inner.get ⟨x.index, hxb⟩ :=
              get_set_other (Ne.symm hidx) _ _ hxb
            rw [hgy, hgx, if_pos hye, if_pos hxe]
            simp only [Option.some.injEq]
            congr 1
            exact List.set_comm _ _ _ (by omega)
          · rw [if_pos hxe, if_neg hye]
            show Shards.merge _ y = Shards.merge s x
            unfold Shards.merge
            rw [dif_pos (by simpa using hyb), dif_pos hxb]
            have hgy : (List.get (s.inner.set x.index (some x.data))
                ⟨y.index, by simpa using hyb⟩) = s.inner.get ⟨y.index, hyb⟩ :=
              get_set_other hidx _ _ hyb
            rw [hgy, if_neg hye, if_pos hxe]
          · rw [if_neg hxe, if_pos hye]
            show Shards.merge s y = Shards.merge _ x
            unfold Shards.merge
            rw [dif_pos hyb, dif_pos (by simpa using hxb)]
            have hgx : (List.get (s.inner.set y.index (some y.data))
                ⟨x.index, by simpa using hxb⟩) = s.inner.get ⟨x.index, hxb⟩ :=
              get_set_other (Ne.symm hidx) _ _ hxb
            rw [hgx, if_pos hye, if_neg hxe]
          · rw [if_neg hxe, if_neg hye]
            show Shards.merge s y = Shards.merge s x
            unfold Shards.merge
            rw [dif_pos hyb, dif_pos hxb, if_neg hye, if_neg hxe]
        · -- y out of bounds: both sides none
          rw [merge_oob hyb]
          show (s.merge x).bind (fun s => s.merge y) = none
          rcases hmx : s.merge x with _ | s1
          · rfl
          · show s1.merge y = none
            apply merge_oob
            rw [merge_length hmx]
            exact hyb
      · -- x out of bounds: both sides none
        rw [merge_oob hxb]
        show none = (s.merge y).bind (fun s => s.merge x)
        rcases hmy : s.merge y with _ | s1
        · rfl
        · show none = s1.merge x
          symm
          apply merge_oob
          rw [merge_length hmy]
          exact hxb

theorem merge_idem (Y : Shards) (t : Shard) :
    (Y.merge t).bind (fun s => s.merge t) = Y.merge t := by
  by_cases hb : t.index < Y.inner.length
  · rw [show Y.merge t = some (if (Y.inner.get ⟨t.index, hb⟩).isNone
        then ⟨Y.inner.set t.index (some t.data)⟩ else Y) from by
      unfold Shards.merge; rw [dif_pos hb]]
    by_cases he : (Y.inner.get ⟨t.index, hb⟩).isNone
    · rw [if_pos he]
      show Shards.merge _ t = _
      unfold Shards.merge
      rw [dif_pos (by simpa using hb)]
      have hg : (List.get (Y.inner.set t.index (some t.data))
          ⟨t.index, by simpa using hb⟩) = some t.data := by
        rw [List.get_eq_getElem, List.getElem_set_self]
      rw [hg]
      simp
    · rw [if_neg he]
      show Shards.merge Y t = _
      unfold Shards.merge
      rw [dif_pos hb, if_neg he]
  · rw [merge_oob hb]
    rfl

/-! ### present_iter and store lemmas (C4, C6, C7, C9) -/

theorem present_iter_aux (l : List (Option Bytes)) : ∀ (j : Nat),
    ((l.enumFrom j).filterMap
      (fun p => p.2.map (fun data => Shard.mk p.1 data))).length =
      (l.filter (fun d => d.isSome)).length ∧
    (((l.enumFrom j).filterMap
      (fun p => p.2.map (fun data => Shard.mk p.1 data))).map Shard.index).Pairwise
        (· < ·) ∧
    ∀ x ∈ ((l.enumFrom j).filterMap
      (fun p => p.2.map (fun data => Shard.mk p.1 data))).map Shard.index, j ≤ x := by
  induction l with
  | nil => exact fun j => ⟨rfl, List.Pairwise.nil, fun x hx => absurd hx (by simp)⟩
  | cons a t ih =>
    intro j
    obtain ⟨ihlen, ihpair, ihge⟩ := ih (j + 1)
    rw [List.enumFrom_cons]
    cases a with
    | none =>
      rw [List.filterMap_cons_none (by rfl)]
      refine ⟨?_, ihpair, fun x hx => by
        have := ihge x hx
        omega⟩
      rw [ihlen]
      rfl
    | some b =>
      rw [List.filterMap_cons_some (by rfl)]
      refine ⟨?_, ?_, ?_⟩
      · rw [List.length_cons, ihlen]
        rfl
      · rw [List.map_cons]
        exact List.Pairwise.cons (fun x hx => by
          have := ihge x hx
          show j < x
          omega) ihpair
      · intro x hx
        rw [List.map_cons] at hx
        rcases List.mem_cons.mp hx with rfl | hx
        · exact Nat.le_refl _
        · have := ihge x hx
          omega

theorem present_iter_length (s : Shards) : s.present_iter.length = s.present :=
  (present_iter_aux s.inner 0).1

theorem present_iter_sorted (s : Shards) :
    (s.present_iter.map Shard.index).Pairwise (· < ·) :=
  (present_iter_aux s.inner 0).2.1

theorem storeLookup_append_self {st : Store} {name : Name} (f : File)
    (h : storeLookup st name = none) :
    storeLookup (st ++ [(name, f)]) name = some f := by
  unfold storeLookup at h ⊢
  rw [List.find?_append]
  rcases hf : st.find? (fun p => p.1 == name) with _ | p
  · simp only [hf, Option.none_orElse]
    rw [List.find?_cons_of_pos _ (by simp)]
    rfl
  · rw [hf] at h
    cases h

theorem mapM_eq_map {α β : Type} (f : α → Option β) (g : α → β) :
    ∀ l : List α, (∀ x ∈ l, f x = some (g x)) → l.mapM f = some (l.map g) := by
  intro l
  induction l with
  | nil => intro _; rfl
  | cons a t ih =>
    intro hall
    rw [List.mapM_cons, hall a (List.mem_cons_self a t), ih (fun x hx =>
      hall x (List.mem_cons_of_mem a hx))]
    rfl

/-! ### Claim theorems -/

/-- An encoded file has every one of its n = 2k slots present. -/
theorem encode_present {s : Bytes} {f : File} (henc : File.encode s = some f) :
    f.shards.present = (chunks64 s).length + (chunks64 s).length := by
  obtain ⟨hk0, h256, hmeta, hinner⟩ := encode_spec henc
  unfold Shards.present
  have hall : f.shards.inner.filter (fun d => d.isSome) = f.shards.inner := by
    rw [List.filter_eq_self]
    intro x hx
    rw [hinner] at hx
    obtain ⟨r, _, rfl⟩ := List.mem_map.mp hx
    by_cases hr : r < (chunks64 s).length
    · rw [if_pos hr]
      rfl
    · rw [if_neg hr]
      rfl
  rw [hall, hinner, List.length_map, List.length_range]

/-- C1: for every byte string s (a valid UTF-8 string, as the Rust `String`
argument guarantees), decoding the File produced by `File::encode(s)` —
all n = 2k shards present — succeeds and returns exactly s. -/
theorem c1_encode_decode_roundtrip (s : Bytes) (f : File)
    (hutf : utf8Valid s = true) (henc : File.encode s = some f) :
    f.decode = some s := by
  have hdel : deleteFold (some f.shards) [] = some f.shards := rfl
  have h := (decode_deleted hutf henc hdel).1
  obtain ⟨hk0, h256, hmeta, hinner⟩ := encode_spec henc
  have hpres : f.meta.data_shards ≤ f.shards.present := by
    rw [encode_present henc, hmeta]
    show (chunks64 s).length ≤ _
    omega
  have heta : (⟨f.meta, f.shards⟩ : File) = f := rfl
  rw [← heta]
  exact (h hpres).2

/-- C2: for every string s whose encoding has n = 2k shards and every set
of slots deleted from the resulting ShardSet: if at least k slots remain
present, `can_decode` is true and `decode` yields s; if fewer than k
remain, `can_decode` is false and `decode` yields absent; the
spec-modelled reconstruction fails exactly when fewer than k slots are
present. -/
theorem c2_reconstruction_bound (s : Bytes) (f : File) (del : List Nat)
    (sh2 : Shards) (hutf : utf8Valid s = true) (henc : File.encode s = some f)
    (hdel : deleteFold (some f.shards) del = some sh2) :
    (f.meta.data_shards ≤ sh2.present →
      (⟨f.meta, sh2⟩ : File).can_decode = true ∧
      (⟨f.meta, sh2⟩ : File).decode = some s) ∧
    (sh2.present < f.meta.data_shards →
      (⟨f.meta, sh2⟩ : File).can_decode = false ∧
      (⟨f.meta, sh2⟩ : File).decode = none ∧
      rsReconstruct sh2.inner f.meta.data_shards f.meta.parity_shards = none) :=
  decode_deleted hutf henc hdel

/-- The effect of one `decode()` call on its receiver: the result together
with the receiver as the call leaves it.  Because `decode` takes `&self`
and clones the ShardSet before reconstructing (file.rs:159), the receiver
is unchanged. -/
def File.decode_call (f : File) : Option Bytes × File := (f.decode, f)

/-- C8: `decode` never modifies the File: every slot is identical before
and after the call; repeated calls are idempotent; and on a decodable file
obtained from `encode` (after any deletions leaving at least k slots) each
call yields the original byte string. -/
theorem c8_decode_nondestructive (f : File) :
    (f.decode_call.2 = f ∧
     f.decode_call.2.decode_call.1 = f.decode_call.1 ∧
     ∀ i, f.decode_call.2.shards.inner.getD i none = f.shards.inner.getD i none) ∧
    ∀ (s : Bytes) (f0 : File) (del : List Nat) (sh2 : Shards),
      utf8Valid s = true → File.encode s = some f0 →
      deleteFold (some f0.shards) del = some sh2 →
      f0.meta.data_shards ≤ sh2.present →
      (⟨f0.meta, sh2⟩ : File).decode_call.1 = some s := by
  refine ⟨⟨rfl, rfl, fun i => rfl⟩, ?_⟩
  intro s f0 del sh2 hutf henc hdel hpres
  exact ((decode_deleted hutf henc hdel).1 hpres).2

theorem getD_replicate_none (n i : Nat) :
    (List.replicate n (none : Option Bytes)).getD i none = none := by
  rw [List.getD_eq_getElem?_getD, List.getElem?_replicate]
  split <;> rfl

/-- C3 counterexample: two different shards with the same index applied to
an empty slot do not commute — the first one wins. -/
theorem c3_counterexample :
    [Shard.mk 0 [gf 1], Shard.mk 0 [gf 2]].Perm
      [Shard.mk 0 [gf 2], Shard.mk 0 [gf 1]] ∧
    mergeFold (some ⟨[none]⟩) [Shard.mk 0 [gf 1], Shard.mk 0 [gf 2]] ≠
      mergeFold (some ⟨[none]⟩) [Shard.mk 0 [gf 2], Shard.mk 0 [gf 1]] := by
  constructor
  · exact List.Perm.swap _ _ _
  · decide

/-- C3 (amended): merge applied in any order yields the same ShardSet for
sequences in which shards sharing an index carry the same data (invariant
I3 guarantees this for shards of one object); merge is idempotent; and a
slot, once occupied with data d, is never overwritten by merge. -/
theorem c3_merge_monotone (X : Shards) (σ σ2 : List Shard) (hperm : σ.Perm σ2)
    (hcons : ∀ a ∈ σ, ∀ b ∈ σ, a.index = b.index → a.data = b.data) :
    mergeFold (some X) σ = mergeFold (some X) σ2 ∧
    (∀ (Y : Shards) (t : Shard), mergeFold (some Y) [t, t] = mergeFold (some Y) [t]) ∧
    (∀ (Y Z : Shards) (t : Shard) (i : Nat) (d : Bytes),
      Y.inner.getD i none = some d → Y.merge t = some Z →
      Z.inner.getD i none = some d) := by
  refine ⟨?_, ?_, ?_⟩
  · exact hperm.foldl_eq'
      (fun x hx y hy z => mergeStep_comm x y (hcons x hx y hy) z) (some X)
  · intro Y t
    show ((some Y).bind (fun s => s.merge t)).bind (fun s => s.merge t) =
      (some Y).bind (fun s => s.merge t)
    exact merge_idem Y t
  · intro Y Z t i d hslot hmerge
    have hib : i < Y.inner.length := by
      by_contra hc
      rw [List.getD_eq_getElem?_getD, List.getElem?_eq_none (by omega)] at hslot
      cases hslot
    by_cases hb : t.index < Y.inner.length
    · rw [show Y.merge t = some (if (Y.inner.get ⟨t.index, hb⟩).isNone
          then ⟨Y.inner.set t.index (some t.data)⟩ else Y) from by
        unfold Shards.merge; rw [dif_pos hb]] at hmerge
      simp only [Option.some.injEq] at hmerge
      subst hmerge
      rcases eq_or_ne t.index i with rfl | hne
      · have hocc : ¬ (Y.inner.get ⟨t.index, hb⟩).isNone := by
          rw [List.get_eq_getElem]
          rw [List.getD_eq_getElem?_getD, List.getElem?_eq_getElem hib] at hslot
          simp only [Option.getD_some] at hslot
          rw [hslot]
          simp
        rw [if_neg hocc]
        exact hslot
      · by_cases he : (Y.inner.get ⟨t.index, hb⟩).isNone
        · rw [if_pos he]
          show (Y.inner.set t.index (some t.data)).getD i none = some d
          rw [List.getD_eq_getElem?_getD, List.getElem?_set_ne hne,
            ← List.getD_eq_getElem?_getD]
          exact hslot
        · rw [if_neg he]
          exact hslot
    · rw [merge_oob hb] at hmerge
      cases hmerge

/-- C3 witness instance. -/
theorem c3_witness :
    mergeFold (some ⟨[none, none]⟩) [Shard.mk 0 [gf 5], Shard.mk 1 [gf 6]] =
      mergeFold (some ⟨[none, none]⟩) [Shard.mk 1 [gf 6], Shard.mk 0 [gf 5]] :=
  (c3_merge_monotone ⟨[none, none]⟩ _ _ (List.Perm.swap _ _ _) (by decide)).1

/-- C9: handling Create inserts an empty entry (all slots absent) only when
the name is absent; an existing entry is left untouched; any nonempty
sequence of identical Creates leaves the store as a single Create does. -/
theorem c9_create_idempotent (st : Store) (peer : PeerId) (name : Name)
    (meta : Metadata) :
    Node.step st peer (Command.Create name meta) =
      some (ensureEntry st name meta, []) ∧
    ((storeLookup st name).isSome = true → ensureEntry st name meta = st) ∧
    (storeLookup st name = none →
      ensureEntry st name meta = st ++ [(name, File.empty meta)] ∧
      ∀ i, (File.empty meta).shards.inner.getD i none = none) ∧
    (∀ j : Nat, (fun s => ensureEntry s name meta)^[j + 1] st =
      ensureEntry st name meta) := by
  have hsome : ∀ s2 : Store, (storeLookup s2 name).isSome = true →
      ensureEntry s2 name meta = s2 := by
    intro s2 h2
    unfold ensureEntry
    rw [if_pos h2]
  have hafter : (storeLookup (ensureEntry st name meta) name).isSome = true := by
    rcases hl : storeLookup st name with _ | f
    · unfold ensureEntry
      rw [hl]
      simp only [Option.isSome_none, Bool.false_eq_true, if_false]
      rw [storeLookup_append_self _ hl]
      rfl
    · rw [hsome st (by rw [hl]; rfl), hl]
      rfl
  refine ⟨rfl, hsome st, ?_, ?_⟩
  · intro h
    refine ⟨?_, fun i => getD_replicate_none _ i⟩
    unfold ensureEntry
    rw [h]
    simp
  · have hconst : ∀ m : Nat, (fun s => ensureEntry s name meta)^[m]
        (ensureEntry st name meta) = ensureEntry st name meta := by
      intro m
      induction m with
      | zero => rfl
      | succ m ihm =>
        rw [Function.iterate_succ_apply, hsome _ hafter]
        exact ihm
    intro j
    rw [Function.iterate_succ_apply]
    exact hconst j

/-- C9 witness instance. -/
theorem c9_witness :
    ensureEntry ([] : Store) [gf 97] ⟨1, 1, 1⟩ =
      [] ++ [([gf 97], File.empty ⟨1, 1, 1⟩)] :=
  ((c9_create_idempotent [] [gf 112] [gf 97] ⟨1, 1, 1⟩).2.2.1 rfl).1

/-- C7: a Replicate for an unknown name is dropped silently (store
unchanged, no sends, no panic); a later Create yields a fresh entry with
every slot absent — the dropped shard is not resurrected. -/
theorem c7_replicate_before_create (st : Store) (peer : PeerId) (name : Name)
    (shard : Shard) (meta : Metadata) (h : storeLookup st name = none) :
    Node.step st peer (Command.Replicate name shard) = some (st, []) ∧
    Node.step st peer (Command.Create name meta) =
      some (st ++ [(name, File.empty meta)], []) ∧
    storeLookup (st ++ [(name, File.empty meta)]) name = some (File.empty meta) ∧
    ∀ i, (File.empty meta).shards.inner.getD i none = none := by
  refine ⟨?_, ?_, storeLookup_append_self _ h, fun i => getD_replicate_none _ i⟩
  · unfold Node.step
    simp only [h]
  · show some (ensureEntry st name meta, []) = _
    unfold ensureEntry
    rw [h]
    simp

/-- C7 witness instance. -/
theorem c7_witness :
    Node.step ([] : Store) [gf 112] (Command.Replicate [gf 97] ⟨0, [gf 1]⟩) =
      some ([], []) :=
  (c7_replicate_before_create [] [gf 112] [gf 97] ⟨0, [gf 1]⟩ ⟨1, 1, 1⟩ rfl).1

/-- C6: a Request from peer p for a known name is answered with exactly one
Replicate per present shard, all addressed to p, leaving the store (and so
the local entry) unchanged; an unknown name draws no reply. -/
theorem c6_request_replies (st : Store) (p : PeerId) (name : Name) :
    (∀ f, storeLookup st name = some f →
      Node.step st p (Command.Request name) =
        some (st, f.shards.present_iter.map
          (fun sh => (p, Command.Replicate name sh))) ∧
      (f.shards.present_iter.map (fun sh => (p, Command.Replicate name sh))).length =
        f.shards.present ∧
      ∀ m ∈ f.shards.present_iter.map (fun sh => (p, Command.Replicate name sh)),
        m.1 = p) ∧
    (storeLookup st name = none →
      Node.step st p (Command.Request name) = some (st, [])) := by
  constructor
  · intro f hf
    refine ⟨?_, ?_, ?_⟩
    · unfold Node.step
      simp only [hf]
    · rw [List.length_map]
      exact present_iter_length f.shards
    · intro m hm
      obtain ⟨sh, _, rfl⟩ := List.mem_map.mp hm
      rfl
  · intro h
    unfold Node.step
    simp only [h]
    rfl

/-- C10: `Shards::merge` indexes the slot vector with no bounds check: an
out-of-range shard index panics (rather than dropping the shard or
returning an absent result), and through the reactor a Replicate whose
shard index exceeds the local entry's slot count panics likewise. -/
theorem c10_merge_out_of_bounds (s : Shards) (sh : Shard)
    (hoob : s.inner.length ≤ sh.index) :
    s.merge sh = none ∧
    ∀ (st : Store) (peer : PeerId) (name : Name) (f : File),
      storeLookup st name = some f → f.shards = s →
      Node.step st peer (Command.Replicate name sh) = none := by
  have hm : s.merge sh = none := merge_oob (by omega)
  refine ⟨hm, ?_⟩
  intro st peer name f hl hs
  unfold Node.step
  simp only [hl, hs, hm]

set_option maxRecDepth 1000000 in
/-- C4 counterexample: with zero peers and a successfully encoded file,
`upload` panics (`shard.index() % 0`); it neither skips distribution nor
inserts the ObjectEntry. -/
theorem c4_counterexample :
    (File.encode [gf 104]).isSome = true ∧
    Node.upload [] [] [gf 110] [gf 104] = none := by
  constructor
  · decide
  · decide

/-- C4 (amended): with at least one peer, upload sends each present shard,
in ascending index order, in exactly one Replicate addressed to
`peers[s.index mod |peers|]` (after one Create per peer) and inserts the
entry; with zero peers it panics (`% 0`) instead of skipping distribution,
and nothing is inserted. -/
theorem c4_upload_distribution (peers : List PeerId) (st : Store) (name : Name)
    (content : Bytes) (file : File) (henc : File.encode content = some file) :
    (peers ≠ [] →
      Node.upload peers st name content =
        some (storeInsert st name file,
          peers.map (fun p => (p, Command.Create name file.meta)) ++
          file.shards.present_iter.map (fun sh =>
            (peers.getD (sh.index % peers.length) [], Command.Replicate name sh))) ∧
      (file.shards.present_iter.map Shard.index).Pairwise (· < ·)) ∧
    (peers = [] → Node.upload peers st name content = none) := by
  constructor
  · intro hpeers
    have hlen0 : peers.length ≠ 0 := by
      intro hc
      exact hpeers (List.eq_nil_of_length_eq_zero hc)
    refine ⟨?_, present_iter_sorted file.shards⟩
    unfold Node.upload
    rw [henc]
    simp only []
    rw [mapM_eq_map _ (fun sh =>
      (peers.getD (sh.index % peers.length) [], Command.Replicate name sh)) _ ?_]
    · intro sh _
      rw [dif_pos hlen0]
      have hget : peers.get ⟨sh.index % peers.length, Nat.mod_lt _ (by omega)⟩ =
          peers.getD (sh.index % peers.length) [] := by
        rw [List.getD_eq_getElem?_getD,
          List.getElem?_eq_getElem (Nat.mod_lt _ (by omega))]
        rfl
      rw [hget]
  · intro hpeers
    subst hpeers
    have hne : file.shards.present_iter ≠ [] := by
      intro hc
      have h1 := present_iter_length file.shards
      rw [hc] at h1
      obtain ⟨hk0, _, _, _⟩ := encode_spec henc
      have h2 := encode_present henc
      rw [h2] at h1
      simp at h1
      omega
    obtain ⟨a, rest, hcons⟩ : ∃ a rest, file.shards.present_iter = a :: rest := by
      cases hpi : file.shards.present_iter with
      | nil => exact absurd hpi hne
      | cons a rest => exact ⟨a, rest, rfl⟩
    unfold Node.upload
    rw [henc]
    simp only []
    rw [hcons, List.mapM_cons]
    simp

/-- C5 counterexample: encoding the empty string fails, and `upload`
panics (the `unwrap`) even with a live peer — the failure is not surfaced
as a refusal. -/
theorem c5_counterexample :
    File.encode ([] : Bytes) = none ∧
    Node.upload [[gf 49]] [] [gf 120] [] = none := by
  constructor
  · rfl
  · rfl

/-- C5 (amended): when codec construction fails, `upload` panics via
`File::encode(content).unwrap()`; no ObjectEntry is inserted and no
message is sent (the panic, not a refusal value, reaches the caller);
encoding the empty string is such a failure (k = 0 rejected). -/
theorem c5_encode_failure_panics (peers : List PeerId) (st : Store) (name : Name)
    (content : Bytes) (henc : File.encode content = none) :
    Node.upload peers st name content = none ∧ File.encode ([] : Bytes) = none := by
  constructor
  · unfold Node.upload
    rw [henc]
  · rfl

/-- C5 witness instance. -/
theorem c5_witness : Node.upload [[gf 49]] ([] : Store) [gf 120] [] = none :=
  (c5_encode_failure_panics [[gf 49]] [] [gf 120] [] rfl).1

/-- Concrete witness input: the byte string "hi". -/
def wBytes : Bytes := [gf 104, gf 105]

/-- Its encoding (k = 1, n = 2, both shards present). -/
def wFile : File := (File.encode wBytes).getD (File.empty ⟨0, 0, 0⟩)

/-- The encoding with the data shard (slot 0) deleted. -/
def wSh2 : Shards := (deleteFold (some wFile.shards) [0]).getD ⟨[]⟩

set_option maxRecDepth 1000000 in
/-- C1 witness instance. -/
theorem c1_witness : wFile.decode = some wBytes :=
  c1_encode_decode_roundtrip wBytes wFile (by decide) rfl

set_option maxRecDepth 1000000 in
/-- C2 witness instance: decode succeeds from the parity shard alone. -/
theorem c2_witness : (⟨wFile.meta, wSh2⟩ : File).decode = some wBytes :=
  ((c2_reconstruction_bound wBytes wFile [0] wSh2 (by decide) rfl rfl).1
    (by decide)).2

set_option maxRecDepth 1000000 in
/-- C8 witness instance. -/
theorem c8_witness : (⟨wFile.meta, wSh2⟩ : File).decode_call.1 = some wBytes :=
  (c8_decode_nondestructive wFile).2 wBytes wFile [0] wSh2 (by decide) rfl rfl
    (by decide)

set_option maxRecDepth 1000000 in
/-- C4 witness instance. -/
theorem c4_witness :
    Node.upload [[gf 49]] ([] : Store) [gf 110] wBytes =
      some (storeInsert [] [gf 110] wFile,
        [[gf 49]].map (fun p => (p, Command.Create [gf 110] wFile.meta)) ++
        wFile.shards.present_iter.map (fun sh =>
          ([[gf 49]].getD (sh.index % List.length [[gf 49]]) [],
            Command.Replicate [gf 110] sh))) :=
  ((c4_upload_distribution [[gf 49]] [] [gf 110] wBytes wFile rfl).1 (by decide)).1

set_option maxRecDepth 1000000 in
/-- C6 witness instance. -/
theorem c6_witness :
    Node.step [([gf 97], wFile)] [gf 112] (Command.Request [gf 97]) =
      some ([([gf 97], wFile)], wFile.shards.present_iter.map
        (fun sh => ([gf 112], Command.Replicate [gf 97] sh))) :=
  ((c6_request_replies [([gf 97], wFile)] [gf 112] [gf 97]).1 wFile rfl).1

/-- C10 witness instance. -/
theorem c10_witness :
    Shards.merge ⟨[none]⟩ ⟨5, [gf 1]⟩ = none ∧
    Node.step [([gf 97], (⟨⟨1, 1, 1⟩, ⟨[none]⟩⟩ : File))] [gf 112]
      (Command.Replicate [gf 97] ⟨5, [gf 1]⟩) = none :=
  ⟨(c10_merge_out_of_bounds ⟨[none]⟩ ⟨5, [gf 1]⟩ (by decide)).1,
   (c10_merge_out_of_bounds ⟨[none]⟩ ⟨5, [gf 1]⟩ (by decide)).2
     [([gf 97], ⟨⟨1, 1, 1⟩, ⟨[none]⟩⟩)] [gf 112] [gf 97] ⟨⟨1, 1, 1⟩, ⟨[none]⟩⟩
     rfl rfl⟩
